import Mathlib

/-!
Shallow embedding of the conversation graph builder and the traversal engine
of the bevy_talks repository (file src/conversation.rs).

The Rust HashMap values are embedded as association lists in insertion order;
the only map operations the source uses are insert (reporting whether the key
was present), lookup, contains and iteration.  The petgraph DiGraph is
embedded as a node list plus an edge list; add_node appends and returns the
index, add_edge appends, and the outgoing-edge iterator of a node yields the
most recently added edge first.
-/

set_option autoImplicit false

/-- Modelled from the spec: the action identifier is an author-supplied
integer key (missing file src/script.rs). -/
abbrev ActionId := Int

/-- Modelled from the spec: a named, asset-referencing actor record
(missing file src/script.rs). -/
structure Actor where
  name : String
  asset : String
deriving DecidableEq, Inhabited

/-- Modelled from the spec: a choice is a display text plus a required
explicit next id (missing file src/script.rs). -/
structure Choice where
  text : String
  next : ActionId
deriving DecidableEq, Inhabited

/-- Modelled from the spec: an actor line has optional text, an optional list
of actor references, an optional explicit next id and an optional start flag
(missing file src/script.rs). -/
structure ActorAction where
  id : ActionId
  text : Option String
  actors : Option (List String)
  next : Option ActionId
  start : Option Bool
deriving DecidableEq, Inhabited

/-- Modelled from the spec: a player line has an id, an ordered list of
choices and an optional start flag (missing file src/script.rs). -/
structure PlayerAction where
  id : ActionId
  choices : List Choice
  start : Option Bool
deriving DecidableEq, Inhabited

/-- Modelled from the spec: a script entry is a tagged variant, either an
actor line or a player line (missing file src/script.rs). -/
inductive ActorOrPlayerActionJSON where
  | actor (a : ActorAction)
  | player (p : PlayerAction)
deriving DecidableEq, Inhabited

/-- Accessor, modelled from the spec: the id of either entry kind. -/
def ActorOrPlayerActionJSON.id : ActorOrPlayerActionJSON → ActionId
  | .actor a => a.id
  | .player p => p.id

/-- Accessor, modelled from the spec: the start flag of either entry kind. -/
def ActorOrPlayerActionJSON.start : ActorOrPlayerActionJSON → Option Bool
  | .actor a => a.start
  | .player p => p.start

/-- Accessor, modelled from the spec: only actor lines carry an explicit next
id; a player line has no next field, every exit is an explicit choice, so its
next accessor is none. -/
def ActorOrPlayerActionJSON.next : ActorOrPlayerActionJSON → Option ActionId
  | .actor a => a.next
  | .player _ => none

/-- Accessor, modelled from the spec: only player lines carry choices. -/
def ActorOrPlayerActionJSON.choices : ActorOrPlayerActionJSON → Option (List Choice)
  | .actor _ => none
  | .player p => some p.choices

/-- Modelled from the spec: the raw script is an actor table plus an ordered
list of entries (missing file src/script.rs). -/
structure RawScript where
  actors : List (String × Actor)
  script : List ActorOrPlayerActionJSON
deriving DecidableEq, Inhabited

/-- Modelled from the spec: the closed set of construction errors
(missing file src/errors.rs). -/
inductive ScriptParsingError where
  | EmptyScript
  | RepeatedId (id : ActionId)
  | ActorNotFound (id : ActionId) (key : String)
  | MultipleStartingAction
  | NextActionNotFound (src : ActionId) (missing : ActionId)
  | NoStartingAction
deriving DecidableEq, Inhabited

/-- Modelled from the spec: the closed set of traversal errors
(missing file src/errors.rs). -/
inductive ConversationError where
  | InvalidDialogue
  | ChoicesNotHandled
  | NoNextDialogue
  | NoChoices
  | WrongJump (id : ActionId)
deriving DecidableEq, Inhabited

/-- Lookup in an association list, first matching key wins
(embeds HashMap get). -/
def alistGet {α β : Type} [DecidableEq α] : List (α × β) → α → Option β
  | [], _ => none
  | (k0, v) :: rest, k => if k0 = k then some v else alistGet rest k

/-- Insert into an association list: replace in place when the key is present
(returning the old value), append otherwise (embeds HashMap insert). -/
def alistInsert {α β : Type} [DecidableEq α] : List (α × β) → α → β → List (α × β) × Option β
  | [], k, v => ([(k, v)], none)
  | (k0, v0) :: rest, k, v =>
    if k0 = k then ((k0, v) :: rest, some v0)
    else
      let r := alistInsert rest k v
      ((k0, v0) :: r.1, r.2)

/-- A graph node: optional text, optional resolved actors, optional choices
(struct ConvoNode in the source). -/
structure ConvoNode where
  text : Option String
  actors : Option (List Actor)
  choices : Option (List Choice)
deriving DecidableEq, Inhabited

/-- The directed graph: node list plus edge list (source, target), embedding
the petgraph DiGraph used by the source. -/
structure Graph where
  nodes : List ConvoNode
  edges : List (Nat × Nat)
deriving DecidableEq, Inhabited

/-- Append a node, returning the graph and the index of the new node. -/
def Graph.addNode (g : Graph) (n : ConvoNode) : Graph × Nat :=
  ({ g with nodes := g.nodes ++ [n] }, g.nodes.length)

/-- Append an edge from node s to node t. -/
def Graph.addEdge (g : Graph) (s t : Nat) : Graph :=
  { g with edges := g.edges ++ [(s, t)] }

/-- Outgoing edges of a node, most recently added first, following the
petgraph iteration order used by next_line. -/
def Graph.outEdges (g : Graph) (i : Nat) : List (Nat × Nat) :=
  (g.edges.filter (fun e => e.1 == i)).reverse

/-- Number of outgoing edges of a node. -/
def Graph.outDeg (g : Graph) (i : Nat) : Nat :=
  (g.outEdges i).length

/-- A minimal representation of a convo node for validation purposes
(struct StrippedNodeAction in the source). -/
structure StrippedNodeAction where
  node_idx : Nat
  next_action_id : Option ActionId
  choices : Option (List ActionId)
deriving DecidableEq, Inhabited

/-- Loop body of build_id_to_next_map: walks the script, mapping each entry id
to its explicit next, or to the id of the following entry when the entry has
no explicit next and is not last. -/
def build_id_to_next_map_aux :
    List ActorOrPlayerActionJSON → List (ActionId × ActionId) →
    Except ScriptParsingError (List (ActionId × ActionId))
  | [], acc => .ok acc
  | a :: rest, acc =>
    match a.next with
    | some n =>
      let r := alistInsert acc a.id n
      if r.2.isSome then .error (.RepeatedId a.id)
      else build_id_to_next_map_aux rest r.1
    | none =>
      match rest with
      | [] => .ok acc
      | b :: _ => build_id_to_next_map_aux rest (alistInsert acc a.id b.id).1

/-- build_id_to_next_map of the source. -/
def build_id_to_next_map (script : List ActorOrPlayerActionJSON) :
    Except ScriptParsingError (List (ActionId × ActionId)) :=
  build_id_to_next_map_aux script []

/-- Loop body of extract_actors: resolve each actor reference against the
actor table, failing with ActorNotFound on a missing key. -/
def extract_actors_aux (id : ActionId) (actors_map : List (String × Actor)) :
    List String → Except ScriptParsingError (List Actor)
  | [] => .ok []
  | a :: rest =>
    match alistGet actors_map a with
    | none => .error (.ActorNotFound id a)
    | some act =>
      match extract_actors_aux id actors_map rest with
      | .error e => .error e
      | .ok acts => .ok (act :: acts)

/-- extract_actors of the source. -/
def extract_actors (aaction : ActorAction) (actors_map : List (String × Actor)) :
    Except ScriptParsingError (Option (List Actor)) :=
  match aaction.actors with
  | some actors_vec =>
    match extract_actors_aux aaction.id actors_map actors_vec with
    | .error e => .error e
    | .ok acts => .ok (some acts)
  | none => .ok none

/-- check_start_flag of the source. -/
def check_start_flag (start_flag : Option Bool) (already_have_start : Bool) :
    Except ScriptParsingError Bool :=
  match start_flag with
  | some true =>
    if already_have_start then .error .MultipleStartingAction else .ok true
  | _ => .ok false

/-- add_action_node of the source: convert an entry to a node and append it. -/
def add_action_node (g : Graph) (action : ActorOrPlayerActionJSON)
    (actors_map : List (String × Actor)) : Except ScriptParsingError (Graph × Nat) :=
  match action with
  | .actor actor_action =>
    match extract_actors actor_action actors_map with
    | .error e => .error e
    | .ok acts =>
      .ok (g.addNode { text := actor_action.text, actors := acts, choices := none })
  | .player player_action =>
    .ok (g.addNode { text := none, actors := none, choices := some player_action.choices })

/-- Inner loop of validate_nexts over the choice targets of one entry. -/
def validate_choices_nexts (m : List (ActionId × StrippedNodeAction)) (id : ActionId) :
    List ActionId → Except ScriptParsingError Unit
  | [] => .ok ()
  | c :: cs =>
    if (alistGet m c).isSome then validate_choices_nexts m id cs
    else .error (.NextActionNotFound id c)

/-- Loop of validate_nexts over the entries of the map. -/
def validate_nexts_aux (m : List (ActionId × StrippedNodeAction)) :
    List (ActionId × StrippedNodeAction) → Except ScriptParsingError Unit
  | [] => .ok ()
  | (id, sn) :: rest =>
    match sn.next_action_id with
    | some next_id =>
      if (alistGet m next_id).isSome then validate_nexts_aux m rest
      else .error (.NextActionNotFound id next_id)
    | none =>
      match sn.choices with
      | some vc =>
        match validate_choices_nexts m id vc with
        | .error e => .error e
        | .ok _ => validate_nexts_aux m rest
      | none => validate_nexts_aux m rest

/-- validate_nexts of the source: every next and, for entries without a next,
every choice target must name an existing entry. -/
def validate_nexts (m : List (ActionId × StrippedNodeAction)) :
    Except ScriptParsingError Unit :=
  validate_nexts_aux m m

/-- Step 2 of Conversation::new: walk the script, adding one graph node per
entry, tracking the start node and building the stripped-action map, with the
duplicate-id check on insertion. -/
def process_script_actions (actors_map : List (String × Actor))
    (id_to_next_map : List (ActionId × ActionId)) :
    List ActorOrPlayerActionJSON → Graph → Option Nat →
    List (ActionId × StrippedNodeAction) →
    Except ScriptParsingError (Graph × Option Nat × List (ActionId × StrippedNodeAction))
  | [], g, sa, m => .ok (g, sa, m)
  | action :: rest, g, sa, m =>
    match add_action_node g action actors_map with
    | .error e => .error e
    | .ok (g1, node_idx) =>
      match check_start_flag action.start sa.isSome with
      | .error e => .error e
      | .ok b =>
        let sa1 := if b then some node_idx else sa
        let r := alistInsert m action.id
          { node_idx := node_idx,
            next_action_id := alistGet id_to_next_map action.id,
            choices := action.choices.map (fun vc => vc.map Choice.next) }
        if r.2.isSome then .error (.RepeatedId action.id)
        else process_script_actions actors_map id_to_next_map rest g1 sa1 r.1

/-- Step 4 of Conversation::new, choice part: one edge per choice target, in
authored order. -/
def add_choice_edges (m : List (ActionId × StrippedNodeAction)) (action_id : ActionId)
    (src : Nat) : Graph → List ActionId → Except ScriptParsingError Graph
  | g, [] => .ok g
  | g, c :: cs =>
    match alistGet m c with
    | none => .error (.NextActionNotFound action_id c)
    | some tgt => add_choice_edges m action_id src (g.addEdge src tgt.node_idx) cs

/-- Step 4 of Conversation::new, per entry: one edge for the next field if
present, then one edge per choice. -/
def add_node_edges (m : List (ActionId × StrippedNodeAction)) (g : Graph)
    (action_id : ActionId) (sn : StrippedNodeAction) : Except ScriptParsingError Graph :=
  match sn.next_action_id with
  | some next_id =>
    match alistGet m next_id with
    | none => .error (.NextActionNotFound action_id next_id)
    | some tgt =>
      match sn.choices with
      | some cs => add_choice_edges m action_id sn.node_idx (g.addEdge sn.node_idx tgt.node_idx) cs
      | none => .ok (g.addEdge sn.node_idx tgt.node_idx)
  | none =>
    match sn.choices with
    | some cs => add_choice_edges m action_id sn.node_idx g cs
    | none => .ok g

/-- Step 4 of Conversation::new: loop over the stripped-action map. -/
def materialize_edges (m : List (ActionId × StrippedNodeAction)) :
    Graph → List (ActionId × StrippedNodeAction) → Except ScriptParsingError Graph
  | g, [] => .ok g
  | g, (aid, sn) :: rest =>
    match add_node_edges m g aid sn with
    | .error e => .error e
    | .ok g1 => materialize_edges m g1 rest

/-- The built conversation: graph, cursor, id-to-node-index table
(struct Conversation in the source). -/
structure Conversation where
  graph : Graph
  current : Nat
  id_to_nodeidx : List (ActionId × Nat)
deriving DecidableEq, Inhabited

/-- Conversation::new of the source. -/
def Conversation.new (raw_script : RawScript) : Except ScriptParsingError Conversation :=
  if raw_script.script.isEmpty then .error .EmptyScript
  else
    match build_id_to_next_map raw_script.script with
    | .error e => .error e
    | .ok id_to_next_map =>
      match process_script_actions raw_script.actors id_to_next_map raw_script.script
          { nodes := [], edges := [] } none [] with
      | .error e => .error e
      | .ok (graph, start_action, m) =>
        match validate_nexts m with
        | .error e => .error e
        | .ok _ =>
          match materialize_edges m graph m with
          | .error e => .error e
          | .ok graph1 =>
            match start_action with
            | none => .error .NoStartingAction
            | some s =>
              .ok { graph := graph1, current := s,
                    id_to_nodeidx := m.map (fun p => (p.1, p.2.node_idx)) }

/-- Conversation::next_line of the source: the pair is the post-state of the
mutable receiver and the returned result. -/
def Conversation.next_line (c : Conversation) :
    Conversation × Except ConversationError Unit :=
  match c.graph.nodes[c.current]? with
  | none => (c, .error .InvalidDialogue)
  | some cur_dial =>
    if cur_dial.choices.isSome then (c, .error .ChoicesNotHandled)
    else
      match (c.graph.outEdges c.current).head? with
      | none => (c, .error .NoNextDialogue)
      | some e => ({ c with current := e.2 }, .ok ())

/-- Conversation::jump_to of the source. -/
def Conversation.jump_to (c : Conversation) (id : ActionId) :
    Conversation × Except ConversationError Unit :=
  match alistGet c.id_to_nodeidx id with
  | none => (c, .error (.WrongJump id))
  | some idx => ({ c with current := idx }, .ok ())

/-- Conversation::choices of the source; the receiver is an immutable borrow,
so the post-state is always the input state. -/
def Conversation.choices (c : Conversation) :
    Conversation × Except ConversationError (List Choice) :=
  match c.graph.nodes[c.current]? with
  | none => (c, .error .InvalidDialogue)
  | some cur_dial =>
    match cur_dial.choices with
    | some cs => (c, .ok cs)
    | none => (c, .error .NoChoices)

/-- The ids of the entries of a script, in authoring order. -/
def scriptIds (script : List ActorOrPlayerActionJSON) : List ActionId :=
  script.map ActorOrPlayerActionJSON.id

/-- Number of entries flagged start = true. -/
def countStartFlags (script : List ActorOrPlayerActionJSON) : Nat :=
  (script.filter (fun a => a.start == some true)).length

/-- Index of the first entry flagged start = true, if any. -/
def firstStartIdx : List ActorOrPlayerActionJSON → Option Nat
  | [] => none
  | a :: rest =>
    if a.start == some true then some 0 else (firstStartIdx rest).map (· + 1)

/-- Number of entries of a script carrying a given id. -/
def idCount (script : List ActorOrPlayerActionJSON) (d : ActionId) : Nat :=
  (script.filter (fun a => a.id == d)).length

/-- Every actor reference of the entry resolves in the actor table. -/
def actorsResolvable (am : List (String × Actor)) : ActorOrPlayerActionJSON → Prop
  | .actor aa => ∀ s ∈ aa.actors.getD [], (alistGet am s).isSome = true
  | .player _ => True

/-! ### Association list lemmas -/

theorem alistGet_eq_none_iff {α β : Type} [DecidableEq α] (m : List (α × β)) (k : α) :
    alistGet m k = none ↔ k ∉ m.map Prod.fst := by
  induction m with
  | nil => simp [alistGet]
  | cons p rest ih =>
    obtain ⟨k0, v⟩ := p
    by_cases h : k0 = k
    · subst h
      simp [alistGet]
    · simp [alistGet, h, ih, Ne.symm h]

theorem alistGet_isSome_iff {α β : Type} [DecidableEq α] (m : List (α × β)) (k : α) :
    (alistGet m k).isSome = true ↔ k ∈ m.map Prod.fst := by
  rw [Option.isSome_iff_ne_none]
  rw [ne_eq, alistGet_eq_none_iff]
  tauto

theorem alistGet_append {α β : Type} [DecidableEq α] (m1 m2 : List (α × β)) (k : α) :
    alistGet (m1 ++ m2) k =
      match alistGet m1 k with
      | some v => some v
      | none => alistGet m2 k := by
  induction m1 with
  | nil => simp [alistGet]
  | cons p rest ih =>
    obtain ⟨k0, v⟩ := p
    by_cases h : k0 = k
    · simp [alistGet, h]
    · simp [alistGet, h, ih]

theorem alistGet_mem {α β : Type} [DecidableEq α] (m : List (α × β)) (k : α) (v : β)
    (h : alistGet m k = some v) : (k, v) ∈ m := by
  induction m with
  | nil => simp [alistGet] at h
  | cons p rest ih =>
    obtain ⟨k0, v0⟩ := p
    by_cases hk : k0 = k
    · subst hk
      simp [alistGet] at h
      subst h
      exact List.mem_cons_self _ _
    · simp [alistGet, hk] at h
      exact List.mem_cons_of_mem _ (ih h)

theorem alistGet_of_nodup_mem {α β : Type} [DecidableEq α] (m : List (α × β)) (k : α) (v : β)
    (hnd : (m.map Prod.fst).Nodup) (hmem : (k, v) ∈ m) : alistGet m k = some v := by
  induction m with
  | nil => simp at hmem
  | cons p rest ih =>
    obtain ⟨k0, v0⟩ := p
    simp only [List.map_cons, List.nodup_cons] at hnd
    rcases List.mem_cons.mp hmem with h | h
    · cases h
      simp [alistGet]
    · have hne : k0 ≠ k := by
        intro he
        subst he
        exact hnd.1 (List.mem_map.mpr ⟨(k0, v), h, rfl⟩)
      simp [alistGet, hne]
      exact ih hnd.2 h

theorem alistInsert_of_not_mem {α β : Type} [DecidableEq α] (m : List (α × β)) (k : α) (v : β)
    (h : k ∉ m.map Prod.fst) : alistInsert m k v = (m ++ [(k, v)], none) := by
  induction m with
  | nil => simp [alistInsert]
  | cons p rest ih =>
    obtain ⟨k0, v0⟩ := p
    simp only [List.map_cons, List.mem_cons] at h
    push_neg at h
    have hne : k0 ≠ k := Ne.symm h.1
    simp [alistInsert, hne, ih h.2]

theorem alistInsert_snd_isSome {α β : Type} [DecidableEq α] (m : List (α × β)) (k : α) (v : β) :
    (alistInsert m k v).2.isSome = true ↔ k ∈ m.map Prod.fst := by
  induction m with
  | nil => simp [alistInsert]
  | cons p rest ih =>
    obtain ⟨k0, v0⟩ := p
    by_cases h : k0 = k
    · subst h
      simp [alistInsert]
    · simp [alistInsert, h, ih, Ne.symm h]

theorem alistInsert_keys {α β : Type} [DecidableEq α] (m : List (α × β)) (k : α) (v : β) :
    (alistInsert m k v).1.map Prod.fst =
      if k ∈ m.map Prod.fst then m.map Prod.fst else m.map Prod.fst ++ [k] := by
  induction m with
  | nil => simp [alistInsert]
  | cons p rest ih =>
    obtain ⟨k0, v0⟩ := p
    by_cases h : k0 = k
    · subst h
      simp [alistInsert]
    · by_cases hm : k ∈ rest.map Prod.fst
      · simp [alistInsert, h, ih, hm, Ne.symm h]
      · simp [alistInsert, h, ih, hm, Ne.symm h]

/-! ### Concrete example conversations used by witnesses -/

def exChoiceNode : ConvoNode :=
  { text := none, actors := none, choices := some [{ text := "a", next := 2 }] }

def exLineNode : ConvoNode :=
  { text := some "hi", actors := none, choices := none }

def exConvA : Conversation :=
  { graph := { nodes := [exChoiceNode, exLineNode], edges := [(0, 1)] },
    current := 0, id_to_nodeidx := [(1, 0), (2, 1)] }

def exConvB : Conversation :=
  { graph := { nodes := [exChoiceNode, exLineNode], edges := [(0, 1)] },
    current := 1, id_to_nodeidx := [(1, 0), (2, 1)] }

/-! ### Claims C4, C5, C6 -/

/-- C4: on every conversation whose cursor points at an existing node,
calling next_line while that node carries choices returns the
choices-not-handled error, and calling choices while that node carries no
choices returns the no-choices error. -/
theorem C4_mode_enforcement (c : Conversation) (n : ConvoNode)
    (h : c.graph.nodes[c.current]? = some n) :
    (n.choices.isSome = true → (c.next_line).2 = .error .ChoicesNotHandled)
    ∧ (n.choices = none → (c.choices).2 = .error .NoChoices) := by
  constructor
  · intro hc
    simp [Conversation.next_line, h, hc]
  · intro hc
    simp [Conversation.choices, h, hc]

theorem C4_mode_enforcement_witness :
    (exConvA.next_line).2 = .error .ChoicesNotHandled
    ∧ (exConvB.choices).2 = .error .NoChoices :=
  ⟨(C4_mode_enforcement exConvA exChoiceNode rfl).1 rfl,
   (C4_mode_enforcement exConvB exLineNode rfl).2 rfl⟩

/-- C5: every traversal operation that returns an error leaves the whole
conversation state (graph, cursor, id-to-node table) exactly as it was; the
choices query never changes the state at all. -/
theorem C5_error_preserves_state (c : Conversation) :
    (∀ e, (c.next_line).2 = .error e → (c.next_line).1 = c)
    ∧ (∀ id e, (c.jump_to id).2 = .error e → (c.jump_to id).1 = c)
    ∧ (c.choices).1 = c := by
  refine ⟨?_, ?_, ?_⟩
  · intro e he
    rcases hg : c.graph.nodes[c.current]? with _ | n
    · simp [Conversation.next_line, hg]
    · by_cases hc : n.choices.isSome
      · simp [Conversation.next_line, hg, hc]
      · rcases hh : (c.graph.outEdges c.current).head? with _ | ed
        · simp [Conversation.next_line, hg, hc, hh]
        · simp [Conversation.next_line, hg, hc, hh] at he
  · intro id e he
    rcases hg : alistGet c.id_to_nodeidx id with _ | idx
    · simp [Conversation.jump_to, hg]
    · simp [Conversation.jump_to, hg] at he
  · rcases hg : c.graph.nodes[c.current]? with _ | n
    · simp [Conversation.choices, hg]
    · rcases hc : n.choices with _ | cs
      · simp [Conversation.choices, hg, hc]
      · simp [Conversation.choices, hg, hc]

theorem C5_error_preserves_state_witness :
    (exConvA.next_line).1 = exConvA
    ∧ (exConvA.jump_to 5).1 = exConvA
    ∧ (exConvA.choices).1 = exConvA :=
  ⟨(C5_error_preserves_state exConvA).1 .ChoicesNotHandled rfl,
   (C5_error_preserves_state exConvA).2.1 5 (.WrongJump 5) rfl,
   (C5_error_preserves_state exConvA).2.2⟩

/-- C6: jump_to of an id present in the identifier-to-node table succeeds and
sets the cursor to the node recorded for that id, independently of any edges;
jump_to of an absent id fails with the wrong-jump error carrying that id and
leaves the state unchanged. -/
theorem C6_jump_correct (c : Conversation) (id : ActionId) :
    (∀ idx, alistGet c.id_to_nodeidx id = some idx →
      c.jump_to id = ({ c with current := idx }, .ok ()))
    ∧ (alistGet c.id_to_nodeidx id = none →
      c.jump_to id = (c, .error (.WrongJump id))) := by
  constructor
  · intro idx h
    simp [Conversation.jump_to, h]
  · intro h
    simp [Conversation.jump_to, h]

theorem C6_jump_correct_witness :
    exConvB.jump_to 1 = ({ exConvB with current := 0 }, .ok ())
    ∧ exConvB.jump_to 5 = (exConvB, .error (.WrongJump 5)) :=
  ⟨(C6_jump_correct exConvB 1).1 0 rfl, (C6_jump_correct exConvB 5).2 rfl⟩

/-! ### Characterization of the construction pipeline -/

/-- The stripped action the builder records for an entry placed at node index
idx, given the id-to-next map. -/
def strippedOf (itn : List (ActionId × ActionId)) (a : ActorOrPlayerActionJSON)
    (idx : Nat) : StrippedNodeAction :=
  { node_idx := idx, next_action_id := alistGet itn a.id,
    choices := a.choices.map (fun vc => vc.map Choice.next) }

/-- The stripped-action map built for a script segment whose first node gets
index base. -/
def strippedList (itn : List (ActionId × ActionId)) :
    Nat → List ActorOrPlayerActionJSON → List (ActionId × StrippedNodeAction)
  | _, [] => []
  | base, a :: rest => (a.id, strippedOf itn a base) :: strippedList itn (base + 1) rest

theorem strippedList_keys (itn : List (ActionId × ActionId)) (base : Nat)
    (s : List ActorOrPlayerActionJSON) :
    (strippedList itn base s).map Prod.fst = scriptIds s := by
  induction s generalizing base with
  | nil => simp [strippedList, scriptIds]
  | cons a rest ih =>
    simp only [strippedList, List.map_cons, scriptIds, ih (base + 1)]

theorem strippedList_getElem (itn : List (ActionId × ActionId)) (base : Nat)
    (s : List ActorOrPlayerActionJSON) (j : Nat) (a : ActorOrPlayerActionJSON)
    (h : s[j]? = some a) :
    (strippedList itn base s)[j]? = some (a.id, strippedOf itn a (base + j)) := by
  induction s generalizing base j with
  | nil => simp at h
  | cons x rest ih =>
    cases j with
    | zero =>
      simp at h
      subst h
      simp [strippedList]
    | succ j =>
      simp at h
      have := ih (base + 1) j h
      simpa [strippedList, Nat.add_assoc, Nat.add_comm 1 j] using this

theorem strippedList_length (itn : List (ActionId × ActionId)) (base : Nat)
    (s : List ActorOrPlayerActionJSON) :
    (strippedList itn base s).length = s.length := by
  induction s generalizing base with
  | nil => simp [strippedList]
  | cons a rest ih => simp [strippedList, ih]

theorem mem_strippedList (itn : List (ActionId × ActionId)) (base : Nat)
    (s : List ActorOrPlayerActionJSON) (p : ActionId × StrippedNodeAction)
    (h : p ∈ strippedList itn base s) :
    ∃ j a, s[j]? = some a ∧ p = (a.id, strippedOf itn a (base + j)) := by
  induction s generalizing base with
  | nil => simp [strippedList] at h
  | cons x rest ih =>
    rcases List.mem_cons.mp h with h | h
    · exact ⟨0, x, by simp, by simpa using h⟩
    · obtain ⟨j, a, hj, hp⟩ := ih (base + 1) h
      exact ⟨j + 1, a, by simpa using hj,
        by simpa [Nat.add_assoc, Nat.add_comm 1 j] using hp⟩

theorem add_action_node_ok (g : Graph) (a : ActorOrPlayerActionJSON)
    (am : List (String × Actor)) (g1 : Graph) (idx : Nat)
    (h : add_action_node g a am = .ok (g1, idx)) :
    idx = g.nodes.length ∧ g1.edges = g.edges ∧
    ∃ n, g1.nodes = g.nodes ++ [n] ∧ n.choices = a.choices := by
  cases a with
  | actor aa =>
    cases hx : extract_actors aa am with
    | error e => simp [add_action_node, hx] at h
    | ok acts =>
      simp [add_action_node, hx, Graph.addNode] at h
      obtain ⟨h1, h2⟩ := h
      subst h2
      refine ⟨rfl, by simp [← h1], ?_⟩
      refine ⟨{ text := aa.text, actors := acts, choices := none }, by simp [← h1], ?_⟩
      simp [ActorOrPlayerActionJSON.choices]
  | player pa =>
    simp [add_action_node, Graph.addNode] at h
    obtain ⟨h1, h2⟩ := h
    subst h2
    refine ⟨rfl, by simp [← h1], ?_⟩
    refine ⟨{ text := none, actors := none, choices := some pa.choices }, by simp [← h1], ?_⟩
    simp [ActorOrPlayerActionJSON.choices]

theorem check_start_flag_ok_true (sf : Option Bool) (al : Bool)
    (h : check_start_flag sf al = .ok true) : sf = some true ∧ al = false := by
  match sf with
  | some true =>
    cases al with
    | true => simp [check_start_flag] at h
    | false => exact ⟨rfl, rfl⟩
  | some false => simp [check_start_flag] at h
  | none => simp [check_start_flag] at h

theorem check_start_flag_ok_false (sf : Option Bool) (al : Bool)
    (h : check_start_flag sf al = .ok false) : ¬sf = some true := by
  intro he
  subst he
  cases al with
  | true => simp [check_start_flag] at h
  | false => simp [check_start_flag] at h

theorem check_start_flag_some_true (al : Bool) (hal : al = false) :
    check_start_flag (some true) al = .ok true := by
  subst hal
  rfl

theorem check_start_flag_not_start (sf : Option Bool) (al : Bool) (h : ¬sf = some true) :
    check_start_flag sf al = .ok false := by
  match sf with
  | some true => exact absurd rfl h
  | some false => rfl
  | none => rfl

theorem countStartFlags_cons (a : ActorOrPlayerActionJSON) (rest : List ActorOrPlayerActionJSON) :
    countStartFlags (a :: rest) =
      (if a.start = some true then 1 else 0) + countStartFlags rest := by
  by_cases h : a.start = some true
  · simp [countStartFlags, h, Nat.add_comm]
  · simp [countStartFlags, h]

theorem firstStartIdx_lt_length (s : List ActorOrPlayerActionJSON) (j : Nat)
    (h : firstStartIdx s = some j) : j < s.length := by
  induction s generalizing j with
  | nil => simp [firstStartIdx] at h
  | cons a rest ih =>
    by_cases ha : a.start == some true
    · simp [firstStartIdx, ha] at h
      simp only [List.length_cons]
      omega
    · simp [firstStartIdx, ha] at h
      obtain ⟨j0, hj0, hj⟩ := h
      have := ih j0 hj0
      simp only [List.length_cons]
      omega

theorem firstStartIdx_flagged (s : List ActorOrPlayerActionJSON) (j : Nat)
    (h : firstStartIdx s = some j) :
    ∃ a, s[j]? = some a ∧ a.start = some true := by
  induction s generalizing j with
  | nil => simp [firstStartIdx] at h
  | cons a rest ih =>
    by_cases ha : a.start == some true
    · simp [firstStartIdx, ha] at h
      subst h
      exact ⟨a, by simp, by simpa using ha⟩
    · simp [firstStartIdx, ha] at h
      obtain ⟨j0, hj0, hj⟩ := h
      obtain ⟨b, hb, hbs⟩ := ih j0 hj0
      exact ⟨b, by simpa [← hj] using hb, hbs⟩

theorem process_ok_struct (am : List (String × Actor)) (itn : List (ActionId × ActionId))
    (script : List ActorOrPlayerActionJSON) :
    ∀ (g : Graph) (sa : Option Nat) (m : List (ActionId × StrippedNodeAction))
      (g1 : Graph) (sa1 : Option Nat) (m1 : List (ActionId × StrippedNodeAction)),
    process_script_actions am itn script g sa m = .ok (g1, sa1, m1) →
    m1 = m ++ strippedList itn g.nodes.length script
    ∧ g1.edges = g.edges
    ∧ g1.nodes.length = g.nodes.length + script.length
    ∧ (∀ j a, script[j]? = some a →
        ∃ n, g1.nodes[g.nodes.length + j]? = some n ∧ n.choices = a.choices)
    ∧ (∀ i, i < g.nodes.length → g1.nodes[i]? = g.nodes[i]?) := by
  induction script with
  | nil =>
    intro g sa m g1 sa1 m1 h
    simp only [process_script_actions] at h
    cases h
    refine ⟨by simp [strippedList], rfl, by simp, ?_, ?_⟩
    · intro j a ha
      simp at ha
    · intro i _
      rfl
  | cons a rest ih =>
    intro g sa m g1 sa1 m1 h
    simp only [process_script_actions] at h
    cases hadd : add_action_node g a am with
    | error e => rw [hadd] at h; exact absurd h (by simp)
    | ok p =>
      obtain ⟨gA, idx⟩ := p
      rw [hadd] at h
      cases hcs : check_start_flag a.start sa.isSome with
      | error e => rw [hcs] at h; exact absurd h (by simp)
      | ok b =>
        rw [hcs] at h
        simp only at h
        by_cases hmem : a.id ∈ m.map Prod.fst
        · rw [(alistInsert_snd_isSome m a.id _).mpr hmem] at h
          exact absurd h (by simp)
        · rw [alistInsert_of_not_mem m a.id _ hmem] at h
          simp only [Option.isSome_none, Bool.false_eq_true, if_false] at h
          obtain ⟨hidx, hedges, n, hnodes, hnc⟩ := add_action_node_ok g a am gA idx hadd
          obtain ⟨ih1, ih2, ih3, ih4, ih5⟩ := ih gA _ _ g1 sa1 m1 h
          have hlen : gA.nodes.length = g.nodes.length + 1 := by
            rw [hnodes]; simp
          refine ⟨?_, by rw [ih2, hedges], by rw [ih3, hlen]; simp [Nat.add_assoc, Nat.add_comm 1 rest.length], ?_, ?_⟩
          · rw [ih1, hlen]
            subst hidx
            simp only [strippedList, strippedOf]
            rw [List.append_assoc]
            rfl
          · intro j x hx
            cases j with
            | zero =>
              simp only [List.getElem?_cons_zero] at hx
              cases hx
              refine ⟨n, ?_, hnc⟩
              have h0 : g.nodes.length < gA.nodes.length := by omega
              simp only [Nat.add_zero]
              rw [ih5 g.nodes.length h0, hnodes]
              simp
            | succ j =>
              simp only [List.getElem?_cons_succ] at hx
              obtain ⟨nn, hnn, hnnc⟩ := ih4 j x hx
              refine ⟨nn, ?_, hnnc⟩
              rw [← hnn, hlen]
              congr 1
              omega
          · intro i hi
            have h0 : i < gA.nodes.length := by omega
            rw [ih5 i h0, hnodes]
            simp [List.getElem?_append, hi]

theorem process_ok_nodup (am : List (String × Actor)) (itn : List (ActionId × ActionId))
    (script : List ActorOrPlayerActionJSON) :
    ∀ (g : Graph) (sa : Option Nat) (m : List (ActionId × StrippedNodeAction))
      (g1 : Graph) (sa1 : Option Nat) (m1 : List (ActionId × StrippedNodeAction)),
    process_script_actions am itn script g sa m = .ok (g1, sa1, m1) →
    (m.map Prod.fst).Nodup → (m1.map Prod.fst).Nodup := by
  induction script with
  | nil =>
    intro g sa m g1 sa1 m1 h hnd
    simp only [process_script_actions] at h
    cases h
    exact hnd
  | cons a rest ih =>
    intro g sa m g1 sa1 m1 h hnd
    simp only [process_script_actions] at h
    cases hadd : add_action_node g a am with
    | error e => rw [hadd] at h; exact absurd h (by simp)
    | ok p =>
      obtain ⟨gA, idx⟩ := p
      rw [hadd] at h
      cases hcs : check_start_flag a.start sa.isSome with
      | error e => rw [hcs] at h; exact absurd h (by simp)
      | ok b =>
        rw [hcs] at h
        simp only at h
        by_cases hmem : a.id ∈ m.map Prod.fst
        · rw [(alistInsert_snd_isSome m a.id _).mpr hmem] at h
          exact absurd h (by simp)
        · rw [alistInsert_of_not_mem m a.id _ hmem] at h
          simp only [Option.isSome_none, Bool.false_eq_true, if_false] at h
          refine ih gA _ _ g1 sa1 m1 h ?_
          simp [List.nodup_append, hnd, hmem]

theorem process_ok_start (am : List (String × Actor)) (itn : List (ActionId × ActionId))
    (script : List ActorOrPlayerActionJSON) :
    ∀ (g : Graph) (sa : Option Nat) (m : List (ActionId × StrippedNodeAction))
      (g1 : Graph) (sa1 : Option Nat) (m1 : List (ActionId × StrippedNodeAction)),
    process_script_actions am itn script g sa m = .ok (g1, sa1, m1) →
    (sa.isSome = true → countStartFlags script = 0 ∧ sa1 = sa)
    ∧ (sa = none →
        sa1 = (firstStartIdx script).map (fun j => g.nodes.length + j)
        ∧ countStartFlags script ≤ 1) := by
  induction script with
  | nil =>
    intro g sa m g1 sa1 m1 h
    simp only [process_script_actions] at h
    cases h
    constructor
    · intro _
      exact ⟨rfl, rfl⟩
    · intro hnone
      exact ⟨by simp [firstStartIdx, hnone], by simp [countStartFlags]⟩
  | cons a rest ih =>
    intro g sa m g1 sa1 m1 h
    simp only [process_script_actions] at h
    cases hadd : add_action_node g a am with
    | error e => rw [hadd] at h; exact absurd h (by simp)
    | ok p =>
      obtain ⟨gA, idx⟩ := p
      rw [hadd] at h
      cases hcs : check_start_flag a.start sa.isSome with
      | error e => rw [hcs] at h; exact absurd h (by simp)
      | ok b =>
        rw [hcs] at h
        simp only at h
        by_cases hmem : a.id ∈ m.map Prod.fst
        · rw [(alistInsert_snd_isSome m a.id _).mpr hmem] at h
          exact absurd h (by simp)
        · rw [alistInsert_of_not_mem m a.id _ hmem] at h
          simp only [Option.isSome_none, Bool.false_eq_true, if_false] at h
          obtain ⟨hidx, hedges, n, hnodes, _⟩ := add_action_node_ok g a am gA idx hadd
          have hlen : gA.nodes.length = g.nodes.length + 1 := by rw [hnodes]; simp
          cases b with
          | true =>
            obtain ⟨hsf, hal⟩ := check_start_flag_ok_true a.start sa.isSome hcs
            cases sa with
            | some s => simp at hal
            | none =>
              simp only [eq_self_iff_true, if_true] at h
              obtain ⟨ht, _⟩ := ih gA (some idx) _ g1 sa1 m1 h
              obtain ⟨hcnt, hsa1⟩ := ht rfl
              constructor
              · intro habs
                simp at habs
              · intro _
                refine ⟨?_, ?_⟩
                · rw [hsa1]
                  simp [firstStartIdx, hsf, hidx]
                · rw [countStartFlags_cons]
                  simp [hsf, hcnt]
          | false =>
            have hsf := check_start_flag_ok_false a.start sa.isSome hcs
            simp only [Bool.false_eq_true, if_false] at h
            obtain ⟨ht, hn⟩ := ih gA sa _ g1 sa1 m1 h
            constructor
            · intro hsome
              obtain ⟨hcnt, hsa1⟩ := ht hsome
              refine ⟨?_, hsa1⟩
              rw [countStartFlags_cons]
              simp [hsf, hcnt]
            · intro hnone
              obtain ⟨hsa1, hcnt⟩ := hn hnone
              refine ⟨?_, ?_⟩
              · rw [hsa1]
                cases hf : firstStartIdx rest with
                | none => simp [firstStartIdx, hsf, hf]
                | some j0 =>
                  simp [firstStartIdx, hsf, hf, hlen]
                  omega
              · rw [countStartFlags_cons]
                simpa [hsf] using hcnt

theorem idCount_cons (a : ActorOrPlayerActionJSON) (rest : List ActorOrPlayerActionJSON)
    (d : ActionId) :
    idCount (a :: rest) d = (if a.id = d then 1 else 0) + idCount rest d := by
  by_cases h : a.id = d
  · simp [idCount, h, Nat.add_comm]
  · simp [idCount, h]

theorem build_map_aux_get (script : List ActorOrPlayerActionJSON) :
    ∀ (acc itn : List (ActionId × ActionId)),
    build_id_to_next_map_aux script acc = .ok itn →
    ((acc.map Prod.fst) ++ scriptIds script).Nodup →
    (∀ k, k ∉ scriptIds script → alistGet itn k = alistGet acc k)
    ∧ (∀ (j : Nat) (x : ActorOrPlayerActionJSON), script[j]? = some x →
        alistGet itn x.id =
          match x.next with
          | some n => some n
          | none => (script[j+1]?).map ActorOrPlayerActionJSON.id) := by
  induction script with
  | nil =>
    intro acc itn h _
    simp only [build_id_to_next_map_aux] at h
    cases h
    exact ⟨fun k _ => rfl, fun j x hx => by simp at hx⟩
  | cons a rest ih =>
    intro acc itn h hnd
    have hfresh : a.id ∉ acc.map Prod.fst := by
      have := (List.nodup_append.mp hnd).2.2
      intro hin
      exact this hin (by simp [scriptIds])
    have hnotrest : a.id ∉ scriptIds rest := by
      have := (List.nodup_append.mp hnd).2.1
      simp only [scriptIds, List.map_cons, List.nodup_cons] at this
      exact this.1
    simp only [build_id_to_next_map_aux] at h
    cases hna : a.next with
    | some n =>
      rw [hna] at h
      dsimp only at h
      rw [alistInsert_of_not_mem acc a.id n hfresh] at h
      simp only [Option.isSome_none, Bool.false_eq_true, if_false] at h
      have hnd2 : (((acc ++ [(a.id, n)]).map Prod.fst) ++ scriptIds rest).Nodup := by
        simp only [List.map_append, List.map_cons, List.map_nil]
        have heq : (acc.map Prod.fst) ++ scriptIds (a :: rest)
            = ((acc.map Prod.fst) ++ [a.id]) ++ scriptIds rest := by
          simp [scriptIds]
        rw [heq] at hnd
        simpa using hnd
      obtain ⟨p1, p2⟩ := ih (acc ++ [(a.id, n)]) itn h hnd2
      constructor
      · intro k hk
        have hkr : k ∉ scriptIds rest := by
          simp only [scriptIds, List.map_cons, List.mem_cons] at hk
          intro hc
          exact hk (Or.inr hc)
        have hka : ¬a.id = k := by
          simp only [scriptIds, List.map_cons, List.mem_cons] at hk
          intro hc
          exact hk (Or.inl hc.symm)
        rw [p1 k hkr, alistGet_append]
        cases hacc : alistGet acc k with
        | some v => rfl
        | none => simp [alistGet, hka]
      · intro j x hx
        cases j with
        | zero =>
          simp only [List.getElem?_cons_zero] at hx
          cases hx
          rw [p1 a.id hnotrest, alistGet_append]
          rw [(alistGet_eq_none_iff acc a.id).mpr hfresh]
          simp [alistGet, hna]
        | succ j =>
          simp only [List.getElem?_cons_succ] at hx
          have := p2 j x hx
          simpa using this
    | none =>
      rw [hna] at h
      dsimp only at h
      cases rest with
      | nil =>
        cases h
        refine ⟨fun k _ => rfl, ?_⟩
        intro j x hx
        cases j with
        | zero =>
          simp only [List.getElem?_cons_zero] at hx
          cases hx
          simp only [hna]
          simpa using (alistGet_eq_none_iff acc a.id).mpr hfresh
        | succ j => simp at hx
      | cons b tail =>
        dsimp only at h
        rw [alistInsert_of_not_mem acc a.id b.id hfresh] at h
        have hnd2 : (((acc ++ [(a.id, b.id)]).map Prod.fst) ++ scriptIds (b :: tail)).Nodup := by
          have heq : (acc.map Prod.fst) ++ scriptIds (a :: b :: tail)
              = ((acc.map Prod.fst) ++ [a.id]) ++ scriptIds (b :: tail) := by
            simp [scriptIds]
          rw [heq] at hnd
          simpa using hnd
        obtain ⟨p1, p2⟩ := ih (acc ++ [(a.id, b.id)]) itn h hnd2
        constructor
        · intro k hk
          have hkr : k ∉ scriptIds (b :: tail) := by
            simp only [scriptIds, List.map_cons, List.mem_cons] at hk ⊢
            intro hc
            exact hk (Or.inr hc)
          have hka : ¬a.id = k := by
            simp only [scriptIds, List.map_cons, List.mem_cons] at hk
            intro hc
            exact hk (Or.inl hc.symm)
          rw [p1 k hkr, alistGet_append]
          cases hacc : alistGet acc k with
          | some v => rfl
          | none => simp [alistGet, hka]
        · intro j x hx
          cases j with
          | zero =>
            simp only [List.getElem?_cons_zero] at hx
            cases hx
            rw [p1 a.id hnotrest, alistGet_append]
            rw [(alistGet_eq_none_iff acc a.id).mpr hfresh]
            simp [alistGet, hna, ActorOrPlayerActionJSON.id]
          | succ j =>
            simp only [List.getElem?_cons_succ] at hx
            have := p2 j x hx
            simpa using this

theorem build_map_aux_err (script : List ActorOrPlayerActionJSON) :
    ∀ (acc : List (ActionId × ActionId)) (e : ScriptParsingError),
    build_id_to_next_map_aux script acc = .error e →
    ∃ d, e = .RepeatedId d ∧
      ((d ∈ acc.map Prod.fst ∧ 1 ≤ idCount script d) ∨ 2 ≤ idCount script d) := by
  induction script with
  | nil =>
    intro acc e h
    simp [build_id_to_next_map_aux] at h
  | cons a rest ih =>
    intro acc e h
    simp only [build_id_to_next_map_aux] at h
    cases hna : a.next with
    | some n =>
      rw [hna] at h
      dsimp only at h
      by_cases hmem : a.id ∈ acc.map Prod.fst
      · rw [if_pos ((alistInsert_snd_isSome acc a.id n).mpr hmem)] at h
        refine ⟨a.id, by cases h; rfl, Or.inl ⟨hmem, ?_⟩⟩
        rw [idCount_cons]
        simp
      · rw [alistInsert_of_not_mem acc a.id n hmem] at h
        simp only [Option.isSome_none, Bool.false_eq_true, if_false] at h
        obtain ⟨d, he, hd⟩ := ih (acc ++ [(a.id, n)]) e h
        refine ⟨d, he, ?_⟩
        rcases hd with ⟨hk, hc⟩ | hc
        · simp only [List.map_append, List.map_cons, List.map_nil, List.mem_append,
            List.mem_cons, List.not_mem_nil, or_false] at hk
          rcases hk with hk | hk
          · exact Or.inl ⟨hk, by rw [idCount_cons]; omega⟩
          · subst hk
            refine Or.inr ?_
            rw [idCount_cons]
            simp
            omega
        · exact Or.inr (by rw [idCount_cons]; omega)
    | none =>
      rw [hna] at h
      dsimp only at h
      cases rest with
      | nil => simp at h
      | cons b tail =>
        obtain ⟨d, he, hd⟩ := ih (alistInsert acc a.id b.id).1 e h
        refine ⟨d, he, ?_⟩
        rcases hd with ⟨hk, hc⟩ | hc
        · rw [alistInsert_keys] at hk
          by_cases hmem : a.id ∈ acc.map Prod.fst
          · rw [if_pos hmem] at hk
            exact Or.inl ⟨hk, by rw [idCount_cons]; omega⟩
          · rw [if_neg hmem] at hk
            simp only [List.mem_append, List.mem_cons, List.not_mem_nil, or_false] at hk
            rcases hk with hk | hk
            · exact Or.inl ⟨hk, by rw [idCount_cons]; omega⟩
            · subst hk
              refine Or.inr ?_
              rw [idCount_cons]
              simp
              omega
        · exact Or.inr (by rw [idCount_cons]; omega)

/-! ### Validation and edge materialization lemmas -/

/-- Closure of one stripped entry under a map: its next id and all its choice
targets are keys of the map. -/
def EntryClosed (m : List (ActionId × StrippedNodeAction)) (sn : StrippedNodeAction) : Prop :=
  (∀ n, sn.next_action_id = some n → n ∈ m.map Prod.fst)
  ∧ (∀ cs, sn.choices = some cs → ∀ c ∈ cs, c ∈ m.map Prod.fst)

theorem validate_choices_nexts_ok (m : List (ActionId × StrippedNodeAction)) (id : ActionId)
    (cs : List ActionId) (h : ∀ c ∈ cs, c ∈ m.map Prod.fst) :
    validate_choices_nexts m id cs = .ok () := by
  induction cs with
  | nil => rfl
  | cons c rest ih =>
    have hc : (alistGet m c).isSome = true :=
      (alistGet_isSome_iff m c).mpr (h c (List.mem_cons_self c rest))
    simp only [validate_choices_nexts, hc, if_true]
    exact ih (fun x hx => h x (List.mem_cons_of_mem c hx))

theorem validate_choices_nexts_err (m : List (ActionId × StrippedNodeAction)) (id : ActionId)
    (cs : List ActionId) (e : ScriptParsingError)
    (h : validate_choices_nexts m id cs = .error e) :
    ∃ c, e = .NextActionNotFound id c ∧ c ∈ cs ∧ c ∉ m.map Prod.fst := by
  induction cs with
  | nil => simp [validate_choices_nexts] at h
  | cons c rest ih =>
    by_cases hc : (alistGet m c).isSome = true
    · simp only [validate_choices_nexts, hc, if_true] at h
      obtain ⟨x, he, hx, hnx⟩ := ih h
      exact ⟨x, he, List.mem_cons_of_mem c hx, hnx⟩
    · simp only [validate_choices_nexts, hc, if_false] at h
      refine ⟨c, by cases h; rfl, List.mem_cons_self c rest, ?_⟩
      intro hmem
      exact hc ((alistGet_isSome_iff m c).mpr hmem)

theorem validate_nexts_aux_ok (m : List (ActionId × StrippedNodeAction)) :
    ∀ l : List (ActionId × StrippedNodeAction),
    (∀ p ∈ l, (∀ n, p.2.next_action_id = some n → n ∈ m.map Prod.fst)
      ∧ (p.2.next_action_id = none →
          ∀ cs, p.2.choices = some cs → ∀ c ∈ cs, c ∈ m.map Prod.fst)) →
    validate_nexts_aux m l = .ok () := by
  intro l
  induction l with
  | nil => intro _; rfl
  | cons p rest ih =>
    intro h
    obtain ⟨id, sn⟩ := p
    have hp := h (id, sn) (List.mem_cons_self _ _)
    have hrest : validate_nexts_aux m rest = .ok () :=
      ih (fun q hq => h q (List.mem_cons_of_mem _ hq))
    cases hna : sn.next_action_id with
    | some n =>
      have : (alistGet m n).isSome = true :=
        (alistGet_isSome_iff m n).mpr (hp.1 n hna)
      simp only [validate_nexts_aux, hna, this, if_true]
      exact hrest
    | none =>
      cases hcs : sn.choices with
      | some vc =>
        have hok := validate_choices_nexts_ok m id vc (hp.2 hna vc hcs)
        simp only [validate_nexts_aux, hna, hcs, hok]
        exact hrest
      | none =>
        simp only [validate_nexts_aux, hna, hcs]
        exact hrest

theorem validate_nexts_aux_err (m : List (ActionId × StrippedNodeAction)) :
    ∀ (l : List (ActionId × StrippedNodeAction)) (e : ScriptParsingError),
    validate_nexts_aux m l = .error e →
    ∃ id sn x, (id, sn) ∈ l ∧ e = .NextActionNotFound id x ∧ x ∉ m.map Prod.fst
      ∧ (sn.next_action_id = some x
         ∨ (sn.next_action_id = none ∧ ∃ cs, sn.choices = some cs ∧ x ∈ cs)) := by
  intro l
  induction l with
  | nil => intro e h; simp [validate_nexts_aux] at h
  | cons p rest ih =>
    intro e h
    obtain ⟨id, sn⟩ := p
    cases hna : sn.next_action_id with
    | some n =>
      by_cases hget : (alistGet m n).isSome = true
      · simp only [validate_nexts_aux, hna, hget, if_true] at h
        obtain ⟨i2, s2, x, hmem, he, hx, hor⟩ := ih e h
        exact ⟨i2, s2, x, List.mem_cons_of_mem _ hmem, he, hx, hor⟩
      · simp only [validate_nexts_aux, hna, hget, if_false] at h
        refine ⟨id, sn, n, List.mem_cons_self _ _, by cases h; rfl, ?_, Or.inl hna⟩
        intro hmem
        exact hget ((alistGet_isSome_iff m n).mpr hmem)
    | none =>
      cases hcs : sn.choices with
      | some vc =>
        cases hv : validate_choices_nexts m id vc with
        | error e2 =>
          simp only [validate_nexts_aux, hna, hcs, hv] at h
          obtain ⟨c, he, hc, hnc⟩ := validate_choices_nexts_err m id vc e2 hv
          cases h
          exact ⟨id, sn, c, List.mem_cons_self _ _, he, hnc,
            Or.inr ⟨hna, vc, hcs, hc⟩⟩
        | ok u =>
          cases u
          simp only [validate_nexts_aux, hna, hcs, hv] at h
          obtain ⟨i2, s2, x, hmem, he, hx, hor⟩ := ih e h
          exact ⟨i2, s2, x, List.mem_cons_of_mem _ hmem, he, hx, hor⟩
      | none =>
        simp only [validate_nexts_aux, hna, hcs] at h
        obtain ⟨i2, s2, x, hmem, he, hx, hor⟩ := ih e h
        exact ⟨i2, s2, x, List.mem_cons_of_mem _ hmem, he, hx, hor⟩

/-- The edge contributed by the next field of a stripped entry. -/
def nextEdgeOf (m : List (ActionId × StrippedNodeAction)) (sn : StrippedNodeAction) :
    List (Nat × Nat) :=
  match sn.next_action_id with
  | some n => [(sn.node_idx, ((alistGet m n).getD default).node_idx)]
  | none => []

/-- The edges contributed by the choices of a stripped entry, in authored order. -/
def choiceEdgesOf (m : List (ActionId × StrippedNodeAction)) (sn : StrippedNodeAction) :
    List (Nat × Nat) :=
  match sn.choices with
  | some cs => cs.map (fun c => (sn.node_idx, ((alistGet m c).getD default).node_idx))
  | none => []

/-- All edges contributed by one stripped entry: next edge first, then choice
edges, matching the add order of the source. -/
def edgesOfEntry (m : List (ActionId × StrippedNodeAction)) (sn : StrippedNodeAction) :
    List (Nat × Nat) :=
  nextEdgeOf m sn ++ choiceEdgesOf m sn

/-- Concatenation of the edges of a list of stripped entries. -/
def edgesConcat (m : List (ActionId × StrippedNodeAction)) :
    List (ActionId × StrippedNodeAction) → List (Nat × Nat)
  | [] => []
  | p :: rest => edgesOfEntry m p.2 ++ edgesConcat m rest

theorem add_choice_edges_ok (m : List (ActionId × StrippedNodeAction)) (aid : ActionId)
    (src : Nat) (cs : List ActionId) :
    ∀ g : Graph, (∀ c ∈ cs, c ∈ m.map Prod.fst) →
    add_choice_edges m aid src g cs =
      .ok { g with edges :=
        g.edges ++ cs.map (fun c => (src, ((alistGet m c).getD default).node_idx)) } := by
  induction cs with
  | nil => intro g _; simp [add_choice_edges]
  | cons c rest ih =>
    intro g h
    have hc : (alistGet m c).isSome = true :=
      (alistGet_isSome_iff m c).mpr (h c (List.mem_cons_self c rest))
    obtain ⟨tgt, htgt⟩ := Option.isSome_iff_exists.mp hc
    simp only [add_choice_edges, htgt]
    rw [ih (g.addEdge src tgt.node_idx) (fun x hx => h x (List.mem_cons_of_mem c hx))]
    simp [Graph.addEdge, htgt]

theorem add_choice_edges_err (m : List (ActionId × StrippedNodeAction)) (aid : ActionId)
    (src : Nat) (cs : List ActionId) :
    ∀ (g : Graph) (e : ScriptParsingError),
    add_choice_edges m aid src g cs = .error e →
    ∃ c, e = .NextActionNotFound aid c ∧ c ∈ cs ∧ c ∉ m.map Prod.fst := by
  induction cs with
  | nil => intro g e h; simp [add_choice_edges] at h
  | cons c rest ih =>
    intro g e h
    cases hget : alistGet m c with
    | none =>
      simp only [add_choice_edges, hget] at h
      refine ⟨c, by cases h; rfl, List.mem_cons_self c rest, ?_⟩
      rw [← alistGet_eq_none_iff]
      exact hget
    | some tgt =>
      simp only [add_choice_edges, hget] at h
      obtain ⟨x, he, hx, hnx⟩ := ih (g.addEdge src tgt.node_idx) e h
      exact ⟨x, he, List.mem_cons_of_mem c hx, hnx⟩

theorem add_node_edges_ok (m : List (ActionId × StrippedNodeAction)) (g : Graph)
    (aid : ActionId) (sn : StrippedNodeAction) (h : EntryClosed m sn) :
    add_node_edges m g aid sn = .ok { g with edges := g.edges ++ edgesOfEntry m sn } := by
  cases hna : sn.next_action_id with
  | some n =>
    have hn : (alistGet m n).isSome = true :=
      (alistGet_isSome_iff m n).mpr (h.1 n hna)
    obtain ⟨tgt, htgt⟩ := Option.isSome_iff_exists.mp hn
    cases hcs : sn.choices with
    | some cs =>
      simp only [add_node_edges, hna, htgt, hcs]
      rw [add_choice_edges_ok m aid sn.node_idx cs _ (h.2 cs hcs)]
      simp [Graph.addEdge, edgesOfEntry, nextEdgeOf, choiceEdgesOf, hna, hcs, htgt]
    | none =>
      simp only [add_node_edges, hna, htgt, hcs]
      simp [Graph.addEdge, edgesOfEntry, nextEdgeOf, choiceEdgesOf, hna, hcs, htgt]
  | none =>
    cases hcs : sn.choices with
    | some cs =>
      simp only [add_node_edges, hna, hcs]
      rw [add_choice_edges_ok m aid sn.node_idx cs g (h.2 cs hcs)]
      simp [edgesOfEntry, nextEdgeOf, choiceEdgesOf, hna, hcs]
    | none =>
      simp only [add_node_edges, hna, hcs]
      simp [edgesOfEntry, nextEdgeOf, choiceEdgesOf, hna, hcs]

theorem add_node_edges_err (m : List (ActionId × StrippedNodeAction)) (g : Graph)
    (aid : ActionId) (sn : StrippedNodeAction) (e : ScriptParsingError)
    (h : add_node_edges m g aid sn = .error e) :
    ∃ x, e = .NextActionNotFound aid x ∧ x ∉ m.map Prod.fst
      ∧ (sn.next_action_id = some x ∨ ∃ cs, sn.choices = some cs ∧ x ∈ cs) := by
  cases hna : sn.next_action_id with
  | some n =>
    cases hget : alistGet m n with
    | none =>
      simp only [add_node_edges, hna, hget] at h
      refine ⟨n, by cases h; rfl, ?_, Or.inl rfl⟩
      rw [← alistGet_eq_none_iff]
      exact hget
    | some tgt =>
      cases hcs : sn.choices with
      | some cs =>
        simp only [add_node_edges, hna, hget, hcs] at h
        obtain ⟨x, he, hx, hnx⟩ := add_choice_edges_err m aid sn.node_idx cs _ e h
        exact ⟨x, he, hnx, Or.inr ⟨cs, rfl, hx⟩⟩
      | none =>
        simp only [add_node_edges, hna, hget, hcs] at h
        exact absurd h (by simp)
  | none =>
    cases hcs : sn.choices with
    | some cs =>
      simp only [add_node_edges, hna, hcs] at h
      obtain ⟨x, he, hx, hnx⟩ := add_choice_edges_err m aid sn.node_idx cs g e h
      exact ⟨x, he, hnx, Or.inr ⟨cs, rfl, hx⟩⟩
    | none =>
      simp only [add_node_edges, hna, hcs] at h
      exact absurd h (by simp)

theorem add_choice_edges_ok_closed (m : List (ActionId × StrippedNodeAction)) (aid : ActionId)
    (src : Nat) (cs : List ActionId) :
    ∀ (g g1 : Graph), add_choice_edges m aid src g cs = .ok g1 →
    ∀ c ∈ cs, c ∈ m.map Prod.fst := by
  induction cs with
  | nil => intro g g1 _ c hc; simp at hc
  | cons c rest ih =>
    intro g g1 h x hx
    cases hget : alistGet m c with
    | none =>
      simp only [add_choice_edges, hget] at h
      exact absurd h (by simp)
    | some tgt =>
      simp only [add_choice_edges, hget] at h
      rcases List.mem_cons.mp hx with hx | hx
      · subst hx
        exact (alistGet_isSome_iff m x).mp (by simp [hget])
      · exact ih _ g1 h x hx

theorem add_node_edges_ok_closed (m : List (ActionId × StrippedNodeAction)) (g : Graph)
    (aid : ActionId) (sn : StrippedNodeAction) (g1 : Graph)
    (h : add_node_edges m g aid sn = .ok g1) : EntryClosed m sn := by
  constructor
  · intro n hna
    cases hget : alistGet m n with
    | none =>
      simp only [add_node_edges, hna, hget] at h
      exact absurd h (by simp)
    | some tgt => exact (alistGet_isSome_iff m n).mp (by simp [hget])
  · intro cs hcs c hc
    cases hna : sn.next_action_id with
    | some n =>
      cases hget : alistGet m n with
      | none =>
        simp only [add_node_edges, hna, hget] at h
        exact absurd h (by simp)
      | some tgt =>
        simp only [add_node_edges, hna, hget, hcs] at h
        exact add_choice_edges_ok_closed m aid sn.node_idx cs _ g1 h c hc
    | none =>
      simp only [add_node_edges, hna, hcs] at h
      exact add_choice_edges_ok_closed m aid sn.node_idx cs g g1 h c hc

theorem materialize_edges_ok (m : List (ActionId × StrippedNodeAction)) :
    ∀ (l : List (ActionId × StrippedNodeAction)) (g : Graph),
    (∀ p ∈ l, EntryClosed m p.2) →
    materialize_edges m g l = .ok { g with edges := g.edges ++ edgesConcat m l } := by
  intro l
  induction l with
  | nil => intro g _; simp [materialize_edges, edgesConcat]
  | cons p rest ih =>
    intro g h
    obtain ⟨aid, sn⟩ := p
    have h1 := add_node_edges_ok m g aid sn (h (aid, sn) (List.mem_cons_self _ _))
    simp only [materialize_edges, h1]
    rw [ih _ (fun q hq => h q (List.mem_cons_of_mem _ hq))]
    simp [edgesConcat]

theorem materialize_edges_err (m : List (ActionId × StrippedNodeAction)) :
    ∀ (l : List (ActionId × StrippedNodeAction)) (g : Graph) (e : ScriptParsingError),
    materialize_edges m g l = .error e →
    ∃ aid sn x, (aid, sn) ∈ l ∧ e = .NextActionNotFound aid x ∧ x ∉ m.map Prod.fst
      ∧ (sn.next_action_id = some x ∨ ∃ cs, sn.choices = some cs ∧ x ∈ cs) := by
  intro l
  induction l with
  | nil => intro g e h; simp [materialize_edges] at h
  | cons p rest ih =>
    intro g e h
    obtain ⟨aid, sn⟩ := p
    cases hadd : add_node_edges m g aid sn with
    | error e2 =>
      simp only [materialize_edges, hadd] at h
      cases h
      obtain ⟨x, he, hx, hor⟩ := add_node_edges_err m g aid sn e hadd
      exact ⟨aid, sn, x, List.mem_cons_self _ _, he, hx, hor⟩
    | ok g2 =>
      simp only [materialize_edges, hadd] at h
      obtain ⟨i2, s2, x, hmem, he, hx, hor⟩ := ih g2 e h
      exact ⟨i2, s2, x, List.mem_cons_of_mem _ hmem, he, hx, hor⟩

theorem materialize_edges_ok_closed (m : List (ActionId × StrippedNodeAction)) :
    ∀ (l : List (ActionId × StrippedNodeAction)) (g g1 : Graph),
    materialize_edges m g l = .ok g1 →
    ∀ p ∈ l, EntryClosed m p.2 := by
  intro l
  induction l with
  | nil => intro g g1 _ p hp; simp at hp
  | cons q rest ih =>
    intro g g1 h p hp
    obtain ⟨aid, sn⟩ := q
    cases hadd : add_node_edges m g aid sn with
    | error e2 =>
      simp only [materialize_edges, hadd] at h
      exact absurd h (by simp)
    | ok g2 =>
      simp only [materialize_edges, hadd] at h
      rcases List.mem_cons.mp hp with hp | hp
      · subst hp
        exact add_node_edges_ok_closed m g aid sn g2 hadd
      · exact ih g2 g1 h p hp

/-! ### Success and failure of the node-adding pass -/

theorem extract_actors_aux_ok (id : ActionId) (am : List (String × Actor))
    (l : List String) (h : ∀ s ∈ l, (alistGet am s).isSome = true) :
    ∃ acts, extract_actors_aux id am l = .ok acts := by
  induction l with
  | nil => exact ⟨[], rfl⟩
  | cons s rest ih =>
    obtain ⟨act, hact⟩ := Option.isSome_iff_exists.mp (h s (List.mem_cons_self s rest))
    obtain ⟨acts, hacts⟩ := ih (fun x hx => h x (List.mem_cons_of_mem s hx))
    exact ⟨act :: acts, by simp [extract_actors_aux, hact, hacts]⟩

theorem add_action_node_ok_of_resolvable (g : Graph) (a : ActorOrPlayerActionJSON)
    (am : List (String × Actor)) (h : actorsResolvable am a) :
    ∃ p, add_action_node g a am = .ok p := by
  cases a with
  | actor aa =>
    cases hac : aa.actors with
    | none =>
      refine ⟨g.addNode { text := aa.text, actors := none, choices := none }, ?_⟩
      simp [add_action_node, extract_actors, hac]
    | some l =>
      have hres : ∀ s ∈ l, (alistGet am s).isSome = true := by
        intro s hs
        simp only [actorsResolvable] at h
        exact h s (by simp [hac, hs])
      obtain ⟨acts, hacts⟩ := extract_actors_aux_ok aa.id am l hres
      refine ⟨g.addNode { text := aa.text, actors := some acts, choices := none }, ?_⟩
      simp [add_action_node, extract_actors, hac, hacts]
  | player pa =>
    exact ⟨g.addNode { text := none, actors := none, choices := some pa.choices }, rfl⟩

theorem nodup_shift {α : Type} (l1 : List α) (x : α) (l2 : List α)
    (h : (l1 ++ x :: l2).Nodup) : ((l1 ++ [x]) ++ l2).Nodup := by
  simpa using h

theorem nodup_lift (m : List (ActionId × StrippedNodeAction)) (a : ActorOrPlayerActionJSON)
    (rest : List ActorOrPlayerActionJSON) (M : List (ActionId × StrippedNodeAction))
    (hM : M.map Prod.fst = m.map Prod.fst ++ [a.id])
    (hnd : (m.map Prod.fst ++ scriptIds (a :: rest)).Nodup) :
    (M.map Prod.fst ++ scriptIds rest).Nodup := by
  rw [hM]
  simp only [scriptIds, List.map_cons] at hnd
  exact nodup_shift _ _ _ hnd

theorem dup_lift (m : List (ActionId × StrippedNodeAction)) (a : ActorOrPlayerActionJSON)
    (rest : List ActorOrPlayerActionJSON) (ks : List ActionId)
    (hks : ks = m.map Prod.fst ++ [a.id]) (hmem : a.id ∉ m.map Prod.fst)
    (hdup : ∃ d, (d ∈ m.map Prod.fst ∧ 1 ≤ idCount (a :: rest) d) ∨ 2 ≤ idCount (a :: rest) d) :
    ∃ d, (d ∈ ks ∧ 1 ≤ idCount rest d) ∨ 2 ≤ idCount rest d := by
  subst hks
  obtain ⟨d, hd⟩ := hdup
  rcases hd with ⟨hk, hc⟩ | hc
  · have hne : ¬a.id = d := by
      intro he
      exact hmem (he ▸ hk)
    refine ⟨d, Or.inl ⟨by simp [hk], ?_⟩⟩
    rw [idCount_cons, if_neg hne] at hc
    omega
  · by_cases he : a.id = d
    · subst he
      rw [idCount_cons, if_pos rfl] at hc
      exact ⟨a.id, Or.inl ⟨by simp, by omega⟩⟩
    · rw [idCount_cons, if_neg he] at hc
      exact ⟨d, Or.inr (by omega)⟩

theorem dup_unlift (m : List (ActionId × StrippedNodeAction)) (a : ActorOrPlayerActionJSON)
    (rest : List ActorOrPlayerActionJSON) (ks : List ActionId)
    (hks : ks = m.map Prod.fst ++ [a.id]) (d : ActionId)
    (hd : (d ∈ ks ∧ 1 ≤ idCount rest d) ∨ 2 ≤ idCount rest d) :
    (d ∈ m.map Prod.fst ∧ 1 ≤ idCount (a :: rest) d) ∨ 2 ≤ idCount (a :: rest) d := by
  subst hks
  rcases hd with ⟨hk, hc⟩ | hc
  · simp only [List.mem_append, List.mem_cons, List.not_mem_nil, or_false] at hk
    rcases hk with hk | hk
    · exact Or.inl ⟨hk, by rw [idCount_cons]; omega⟩
    · subst hk
      refine Or.inr ?_
      rw [idCount_cons, if_pos rfl]
      omega
  · exact Or.inr (by rw [idCount_cons]; omega)

theorem process_ok_of_valid (am : List (String × Actor)) (itn : List (ActionId × ActionId))
    (script : List ActorOrPlayerActionJSON) :
    ∀ (g : Graph) (sa : Option Nat) (m : List (ActionId × StrippedNodeAction)),
    (∀ a ∈ script, actorsResolvable am a) →
    countStartFlags script + (if sa.isSome then 1 else 0) ≤ 1 →
    ((m.map Prod.fst) ++ scriptIds script).Nodup →
    ∃ out, process_script_actions am itn script g sa m = .ok out := by
  induction script with
  | nil =>
    intro g sa m _ _ _
    exact ⟨(g, sa, m), rfl⟩
  | cons a rest ih =>
    intro g sa m hres hflag hnd
    have hfresh : a.id ∉ m.map Prod.fst := by
      have := (List.nodup_append.mp hnd).2.2
      intro hin
      exact this hin (by simp [scriptIds])
    obtain ⟨⟨gA, idx⟩, hadd⟩ :=
      add_action_node_ok_of_resolvable g a am (hres a (List.mem_cons_self a rest))
    rw [countStartFlags_cons] at hflag
    by_cases hsf : a.start = some true
    · rw [if_pos hsf] at hflag
      have hsa : sa.isSome = false := by
        cases hv : sa.isSome
        · rfl
        · rw [hv] at hflag
          simp only [if_true] at hflag
          omega
      obtain ⟨out, hout⟩ := ih gA (some idx)
        (m ++ [(a.id, strippedOf itn a idx)])
        (fun x hx => hres x (List.mem_cons_of_mem a hx))
        (by show countStartFlags rest + 1 ≤ 1; omega)
        (nodup_lift m a rest _ (by simp) hnd)
      refine ⟨out, ?_⟩
      simp only [process_script_actions, hadd, hsf,
        check_start_flag_some_true sa.isSome hsa]
      rw [alistInsert_of_not_mem m a.id _ hfresh]
      simp only [Option.isSome_none, Bool.false_eq_true, if_false, if_true]
      exact hout
    · rw [if_neg hsf] at hflag
      obtain ⟨out, hout⟩ := ih gA sa
        (m ++ [(a.id, strippedOf itn a idx)])
        (fun x hx => hres x (List.mem_cons_of_mem a hx))
        (by omega)
        (nodup_lift m a rest _ (by simp) hnd)
      refine ⟨out, ?_⟩
      simp only [process_script_actions, hadd,
        check_start_flag_not_start a.start sa.isSome hsf]
      rw [alistInsert_of_not_mem m a.id _ hfresh]
      simp only [Option.isSome_none, Bool.false_eq_true, if_false]
      exact hout

theorem process_err_repeated (am : List (String × Actor)) (itn : List (ActionId × ActionId))
    (script : List ActorOrPlayerActionJSON) :
    ∀ (g : Graph) (sa : Option Nat) (m : List (ActionId × StrippedNodeAction)),
    (∀ a ∈ script, actorsResolvable am a) →
    countStartFlags script + (if sa.isSome then 1 else 0) ≤ 1 →
    (∃ d, (d ∈ m.map Prod.fst ∧ 1 ≤ idCount script d) ∨ 2 ≤ idCount script d) →
    ∃ d, process_script_actions am itn script g sa m = .error (.RepeatedId d) ∧
      ((d ∈ m.map Prod.fst ∧ 1 ≤ idCount script d) ∨ 2 ≤ idCount script d) := by
  induction script with
  | nil =>
    intro g sa m _ _ hdup
    obtain ⟨d, hd⟩ := hdup
    rcases hd with ⟨_, hc⟩ | hc
    · simp [idCount] at hc
    · simp [idCount] at hc
  | cons a rest ih =>
    intro g sa m hres hflag hdup
    obtain ⟨⟨gA, idx⟩, hadd⟩ :=
      add_action_node_ok_of_resolvable g a am (hres a (List.mem_cons_self a rest))
    rw [countStartFlags_cons] at hflag
    by_cases hmem : a.id ∈ m.map Prod.fst
    · have hins := (alistInsert_snd_isSome m a.id
        { node_idx := idx, next_action_id := alistGet itn a.id,
          choices := a.choices.map (fun vc => vc.map Choice.next) }).mpr hmem
      by_cases hsf : a.start = some true
      · rw [if_pos hsf] at hflag
        have hsa : sa.isSome = false := by
          cases hv : sa.isSome
          · rfl
          · rw [hv] at hflag
            simp only [if_true] at hflag
            omega
        refine ⟨a.id, ?_, Or.inl ⟨hmem, by rw [idCount_cons]; simp⟩⟩
        simp only [process_script_actions, hadd, hsf,
          check_start_flag_some_true sa.isSome hsa]
        rw [if_pos hins]
      · refine ⟨a.id, ?_, Or.inl ⟨hmem, by rw [idCount_cons]; simp⟩⟩
        simp only [process_script_actions, hadd,
          check_start_flag_not_start a.start sa.isSome hsf]
        rw [if_pos hins]
    · by_cases hsf : a.start = some true
      · rw [if_pos hsf] at hflag
        have hsa : sa.isSome = false := by
          cases hv : sa.isSome
          · rfl
          · rw [hv] at hflag
            simp only [if_true] at hflag
            omega
        obtain ⟨d, herr, hd⟩ := ih gA (some idx)
          (m ++ [(a.id, strippedOf itn a idx)])
          (fun x hx => hres x (List.mem_cons_of_mem a hx))
          (by show countStartFlags rest + 1 ≤ 1; omega)
          (dup_lift m a rest _ (by simp) hmem hdup)
        refine ⟨d, ?_, dup_unlift m a rest _ (by simp) d hd⟩
        simp only [process_script_actions, hadd, hsf,
          check_start_flag_some_true sa.isSome hsa]
        rw [alistInsert_of_not_mem m a.id _ hmem]
        simp only [Option.isSome_none, Bool.false_eq_true, if_false, if_true]
        exact herr
      · rw [if_neg hsf] at hflag
        obtain ⟨d, herr, hd⟩ := ih gA sa
          (m ++ [(a.id, strippedOf itn a idx)])
          (fun x hx => hres x (List.mem_cons_of_mem a hx))
          (by omega)
          (dup_lift m a rest _ (by simp) hmem hdup)
        refine ⟨d, ?_, dup_unlift m a rest _ (by simp) d hd⟩
        simp only [process_script_actions, hadd,
          check_start_flag_not_start a.start sa.isSome hsf]
        rw [alistInsert_of_not_mem m a.id _ hmem]
        simp only [Option.isSome_none, Bool.false_eq_true, if_false]
        exact herr

theorem countStartFlags_pos (s : List ActorOrPlayerActionJSON) (j : Nat)
    (h : firstStartIdx s = some j) : 1 ≤ countStartFlags s := by
  obtain ⟨a, ha, hs⟩ := firstStartIdx_flagged s j h
  have hmem : a ∈ s := by
    have hj := firstStartIdx_lt_length s j h
    exact List.getElem?_mem ha
  have hf : a ∈ s.filter (fun x => x.start == some true) :=
    List.mem_filter.mpr ⟨hmem, by simp [hs]⟩
  have := List.length_pos.mpr (List.ne_nil_of_mem hf)
  simpa [countStartFlags] using this

/-- Full characterization of a successful construction: the stripped map, the
node list, the edge list, the id table and the cursor of the result. -/
theorem new_ok_spec (raw : RawScript) (c : Conversation)
    (h : Conversation.new raw = .ok c) :
    ∃ itn m, build_id_to_next_map raw.script = .ok itn
      ∧ m = strippedList itn 0 raw.script
      ∧ (scriptIds raw.script).Nodup
      ∧ c.graph.nodes.length = raw.script.length
      ∧ (∀ (j : Nat) (a : ActorOrPlayerActionJSON), raw.script[j]? = some a →
          ∃ n, c.graph.nodes[j]? = some n ∧ n.choices = a.choices)
      ∧ c.graph.edges = edgesConcat m m
      ∧ c.id_to_nodeidx = m.map (fun p => (p.1, p.2.node_idx))
      ∧ (∀ p ∈ m, EntryClosed m p.2)
      ∧ (∃ j, firstStartIdx raw.script = some j ∧ c.current = j
          ∧ countStartFlags raw.script = 1) := by
  unfold Conversation.new at h
  by_cases hemp : raw.script.isEmpty
  · rw [if_pos hemp] at h
    exact absurd h (by simp)
  rw [if_neg hemp] at h
  cases hitn : build_id_to_next_map raw.script with
  | error e => rw [hitn] at h; exact absurd h (by simp)
  | ok itn =>
    rw [hitn] at h
    dsimp only at h
    cases hproc : process_script_actions raw.actors itn raw.script
        { nodes := [], edges := [] } none [] with
    | error e => rw [hproc] at h; exact absurd h (by simp)
    | ok out =>
      obtain ⟨g0, sa, m0⟩ := out
      rw [hproc] at h
      dsimp only at h
      cases hval : validate_nexts m0 with
      | error e => rw [hval] at h; exact absurd h (by simp)
      | ok u =>
        cases u
        rw [hval] at h
        dsimp only at h
        cases hmat : materialize_edges m0 g0 m0 with
        | error e => rw [hmat] at h; exact absurd h (by simp)
        | ok g1 =>
          rw [hmat] at h
          dsimp only at h
          cases hsa : sa with
          | none => rw [hsa] at h; exact absurd h (by simp)
          | some s =>
            rw [hsa] at h
            dsimp only at h
            cases h
            obtain ⟨hm0, hedges0, hlen0, hnodes0, _⟩ :=
              process_ok_struct raw.actors itn raw.script _ _ _ g0 sa m0 hproc
            simp only [List.nil_append, List.length_nil] at hm0 hlen0 hnodes0
            have hnodup : (scriptIds raw.script).Nodup := by
              have := process_ok_nodup raw.actors itn raw.script _ _ _ g0 sa m0 hproc
                (by simp)
              rw [hm0, strippedList_keys] at this
              exact this
            have hclosed : ∀ p ∈ m0, EntryClosed m0 p.2 :=
              materialize_edges_ok_closed m0 m0 g0 g1 hmat
            rw [materialize_edges_ok m0 m0 g0 hclosed] at hmat
            have hg1 : g1 = { g0 with edges := g0.edges ++ edgesConcat m0 m0 } := by
              cases hmat
              rfl
            have hstart := (process_ok_start raw.actors itn raw.script _ _ _
              g0 sa m0 hproc).2 rfl
            rw [hsa] at hstart
            obtain ⟨hs1, hcnt⟩ := hstart
            cases hfs : firstStartIdx raw.script with
            | none =>
              rw [hfs] at hs1
              simp at hs1
            | some j =>
              rw [hfs] at hs1
              simp only [Option.map_some, List.length_nil, Nat.zero_add] at hs1
              have hsj : s = j := by
                cases hs1
                rfl
              refine ⟨itn, m0, rfl, hm0, hnodup, ?_, ?_, ?_, rfl, hclosed, ?_⟩
              · simp [hg1, hlen0]
              · intro j2 a ha
                obtain ⟨n, hn, hnc⟩ := hnodes0 j2 a ha
                refine ⟨n, ?_, hnc⟩
                simp only [hg1]
                simpa using hn
              · simp [hg1, hedges0]
              · exact ⟨j, rfl, hsj,
                  Nat.le_antisymm hcnt (countStartFlags_pos raw.script j hfs)⟩

theorem edgesOfEntry_src (m : List (ActionId × StrippedNodeAction)) (sn : StrippedNodeAction)
    (e : Nat × Nat) (he : e ∈ edgesOfEntry m sn) : e.1 = sn.node_idx := by
  simp only [edgesOfEntry, List.mem_append] at he
  rcases he with he | he
  · cases hna : sn.next_action_id with
    | none => simp [nextEdgeOf, hna] at he
    | some n =>
      simp only [nextEdgeOf, hna, List.mem_singleton] at he
      rw [he]
  · cases hcs : sn.choices with
    | none => simp [choiceEdgesOf, hcs] at he
    | some cs =>
      simp only [choiceEdgesOf, hcs, List.mem_map] at he
      obtain ⟨c, _, hce⟩ := he
      rw [← hce]

theorem edgesOfEntry_tgt (m : List (ActionId × StrippedNodeAction)) (sn : StrippedNodeAction)
    (hc : EntryClosed m sn) (e : Nat × Nat) (he : e ∈ edgesOfEntry m sn) :
    ∃ q, q ∈ m ∧ e.2 = q.2.node_idx := by
  simp only [edgesOfEntry, List.mem_append] at he
  rcases he with he | he
  · cases hna : sn.next_action_id with
    | none => simp [nextEdgeOf, hna] at he
    | some n =>
      have hin : (alistGet m n).isSome = true := (alistGet_isSome_iff m n).mpr (hc.1 n hna)
      obtain ⟨tgt, htgt⟩ := Option.isSome_iff_exists.mp hin
      simp only [nextEdgeOf, hna, htgt, List.mem_singleton] at he
      refine ⟨(n, tgt), alistGet_mem m n tgt htgt, ?_⟩
      rw [he]
      simp [htgt]
  · cases hcs : sn.choices with
    | none => simp [choiceEdgesOf, hcs] at he
    | some cs =>
      simp only [choiceEdgesOf, hcs, List.mem_map] at he
      obtain ⟨c, hcmem, hce⟩ := he
      have hin : (alistGet m c).isSome = true :=
        (alistGet_isSome_iff m c).mpr (hc.2 cs hcs c hcmem)
      obtain ⟨tgt, htgt⟩ := Option.isSome_iff_exists.mp hin
      refine ⟨(c, tgt), alistGet_mem m c tgt htgt, ?_⟩
      rw [← hce]
      simp [htgt]

theorem filter_edgesOfEntry_ne (m : List (ActionId × StrippedNodeAction))
    (sn : StrippedNodeAction) (i : Nat) (h : sn.node_idx ≠ i) :
    (edgesOfEntry m sn).filter (fun e => e.1 == i) = [] := by
  rw [List.filter_eq_nil_iff]
  intro e he
  have := edgesOfEntry_src m sn e he
  simp [this, h]

theorem filter_edgesOfEntry_self (m : List (ActionId × StrippedNodeAction))
    (sn : StrippedNodeAction) (i : Nat) (h : sn.node_idx = i) :
    (edgesOfEntry m sn).filter (fun e => e.1 == i) = edgesOfEntry m sn := by
  rw [List.filter_eq_self]
  intro e he
  have := edgesOfEntry_src m sn e he
  simp [this, h]

theorem filter_edgesConcat_lt (itn : List (ActionId × ActionId))
    (m : List (ActionId × StrippedNodeAction)) (s : List ActorOrPlayerActionJSON) :
    ∀ base i, i < base →
    (edgesConcat m (strippedList itn base s)).filter (fun e => e.1 == i) = [] := by
  induction s with
  | nil => intro base i _; rfl
  | cons a rest ih =>
    intro base i hi
    simp only [strippedList, edgesConcat, List.filter_append]
    rw [filter_edgesOfEntry_ne m _ i (by simp [strippedOf]; omega),
      ih (base + 1) i (by omega)]
    rfl

theorem filter_edgesConcat (itn : List (ActionId × ActionId))
    (m : List (ActionId × StrippedNodeAction)) (s : List ActorOrPlayerActionJSON) :
    ∀ (base j : Nat) (a : ActorOrPlayerActionJSON), s[j]? = some a →
    (edgesConcat m (strippedList itn base s)).filter (fun e => e.1 == base + j) =
      edgesOfEntry m (strippedOf itn a (base + j)) := by
  induction s with
  | nil => intro base j a ha; simp at ha
  | cons x rest ih =>
    intro base j a ha
    cases j with
    | zero =>
      simp only [List.getElem?_cons_zero] at ha
      cases ha
      simp only [strippedList, edgesConcat, List.filter_append, Nat.add_zero]
      rw [filter_edgesOfEntry_self m _ base (by simp [strippedOf]),
        filter_edgesConcat_lt itn m rest (base + 1) base (by omega)]
      simp
    | succ j =>
      simp only [List.getElem?_cons_succ] at ha
      simp only [strippedList, edgesConcat, List.filter_append]
      rw [filter_edgesOfEntry_ne m _ (base + (j + 1)) (by simp only [strippedOf]; omega)]
      have heq : base + (j + 1) = (base + 1) + j := by omega
      rw [heq, ih (base + 1) j a ha]
      simp

theorem strippedList_node_idx_lt (itn : List (ActionId × ActionId))
    (s : List ActorOrPlayerActionJSON) :
    ∀ base p, p ∈ strippedList itn base s → p.2.node_idx < base + s.length := by
  induction s with
  | nil => intro base p hp; simp [strippedList] at hp
  | cons a rest ih =>
    intro base p hp
    simp only [strippedList, List.mem_cons] at hp
    rcases hp with hp | hp
    · rw [hp]
      simp [strippedOf]
    · have := ih (base + 1) p hp
      simp only [List.length_cons]
      omega

theorem edgesConcat_mem (m : List (ActionId × StrippedNodeAction)) :
    ∀ (l : List (ActionId × StrippedNodeAction)) (e : Nat × Nat),
    e ∈ edgesConcat m l → ∃ p, p ∈ l ∧ e ∈ edgesOfEntry m p.2 := by
  intro l
  induction l with
  | nil => intro e he; simp [edgesConcat] at he
  | cons p rest ih =>
    intro e he
    simp only [edgesConcat, List.mem_append] at he
    rcases he with he | he
    · exact ⟨p, List.mem_cons_self p rest, he⟩
    · obtain ⟨q, hq, hqe⟩ := ih e he
      exact ⟨q, List.mem_cons_of_mem p hq, hqe⟩

theorem idCount_eq_zero (s : List ActorOrPlayerActionJSON) (d : ActionId)
    (h : d ∉ scriptIds s) : idCount s d = 0 := by
  induction s with
  | nil => rfl
  | cons a rest ih =>
    simp only [scriptIds, List.map_cons, List.mem_cons] at h
    push_neg at h
    rw [idCount_cons, if_neg (fun he => h.1 he.symm)]
    simp only [Nat.zero_add]
    exact ih (by simpa [scriptIds] using h.2)

theorem idCount_le_one_of_nodup (s : List ActorOrPlayerActionJSON)
    (hnd : (scriptIds s).Nodup) (d : ActionId) : idCount s d ≤ 1 := by
  induction s with
  | nil => simp [idCount]
  | cons a rest ih =>
    simp only [scriptIds, List.map_cons, List.nodup_cons] at hnd
    rw [idCount_cons]
    by_cases he : a.id = d
    · subst he
      rw [if_pos rfl, idCount_eq_zero rest a.id hnd.1]
    · rw [if_neg he]
      simp only [Nat.zero_add]
      exact ih hnd.2

theorem idCount_pos_nonempty (s : List ActorOrPlayerActionJSON) (d : ActionId)
    (h : 1 ≤ idCount s d) : ¬s.isEmpty = true := by
  cases s with
  | nil => simp [idCount] at h
  | cons a rest => simp

theorem firstStartIdx_none_of_count_zero (s : List ActorOrPlayerActionJSON)
    (h : countStartFlags s = 0) : firstStartIdx s = none := by
  cases hf : firstStartIdx s with
  | none => rfl
  | some j =>
    have := countStartFlags_pos s j hf
    omega

theorem process_err_multistart (am : List (String × Actor)) (itn : List (ActionId × ActionId))
    (script : List ActorOrPlayerActionJSON) :
    ∀ (g : Graph) (sa : Option Nat) (m : List (ActionId × StrippedNodeAction)),
    (∀ a ∈ script, actorsResolvable am a) →
    ((m.map Prod.fst) ++ scriptIds script).Nodup →
    2 ≤ countStartFlags script + (if sa.isSome then 1 else 0) →
    process_script_actions am itn script g sa m = .error .MultipleStartingAction := by
  induction script with
  | nil =>
    intro g sa m _ _ hcnt
    simp only [countStartFlags, List.filter_nil, List.length_nil, Nat.zero_add] at hcnt
    by_cases hsa : sa.isSome = true
    · rw [if_pos hsa] at hcnt
      omega
    · rw [if_neg hsa] at hcnt
      omega
  | cons a rest ih =>
    intro g sa m hres hnd hcnt
    have hfresh : a.id ∉ m.map Prod.fst := by
      have := (List.nodup_append.mp hnd).2.2
      intro hin
      exact this hin (by simp [scriptIds])
    obtain ⟨⟨gA, idx⟩, hadd⟩ :=
      add_action_node_ok_of_resolvable g a am (hres a (List.mem_cons_self a rest))
    rw [countStartFlags_cons] at hcnt
    by_cases hsf : a.start = some true
    · rw [if_pos hsf] at hcnt
      cases hv : sa.isSome with
      | true =>
        simp only [process_script_actions, hadd, hsf, check_start_flag, hv]
        rfl
      | false =>
        rw [hv, if_neg (by simp)] at hcnt
        simp only [process_script_actions, hadd, hsf,
          check_start_flag_some_true sa.isSome hv]
        rw [alistInsert_of_not_mem m a.id _ hfresh]
        simp only [Option.isSome_none, Bool.false_eq_true, if_false, if_true]
        exact ih gA (some idx) _
          (fun x hx => hres x (List.mem_cons_of_mem a hx))
          (nodup_lift m a rest _ (by simp) hnd)
          (by show 2 ≤ countStartFlags rest + 1; omega)
    · rw [if_neg hsf] at hcnt
      simp only [process_script_actions, hadd,
        check_start_flag_not_start a.start sa.isSome hsf]
      rw [alistInsert_of_not_mem m a.id _ hfresh]
      simp only [Option.isSome_none, Bool.false_eq_true, if_false]
      exact ih gA sa _
        (fun x hx => hres x (List.mem_cons_of_mem a hx))
        (nodup_lift m a rest _ (by simp) hnd)
        (by omega)

theorem build_map_ok_of_nodup (script : List ActorOrPlayerActionJSON)
    (hnd : (scriptIds script).Nodup) :
    ∃ itn, build_id_to_next_map script = .ok itn := by
  cases hb : build_id_to_next_map script with
  | ok itn => exact ⟨itn, rfl⟩
  | error e =>
    obtain ⟨d, _, hd⟩ := build_map_aux_err script [] e hb
    rcases hd with ⟨hk, _⟩ | hc
    · simp at hk
    · have := idCount_le_one_of_nodup script hnd d
      omega

theorem nextEdgeOf_some (m : List (ActionId × StrippedNodeAction)) (sn : StrippedNodeAction)
    (n : ActionId) (h : sn.next_action_id = some n) :
    nextEdgeOf m sn = [(sn.node_idx, ((alistGet m n).getD default).node_idx)] := by
  unfold nextEdgeOf
  rw [h]

theorem nextEdgeOf_none (m : List (ActionId × StrippedNodeAction)) (sn : StrippedNodeAction)
    (h : sn.next_action_id = none) : nextEdgeOf m sn = [] := by
  unfold nextEdgeOf
  rw [h]

theorem choiceEdgesOf_some (m : List (ActionId × StrippedNodeAction)) (sn : StrippedNodeAction)
    (cs : List ActionId) (h : sn.choices = some cs) :
    choiceEdgesOf m sn =
      cs.map (fun c => (sn.node_idx, ((alistGet m c).getD default).node_idx)) := by
  unfold choiceEdgesOf
  rw [h]

theorem choiceEdgesOf_none (m : List (ActionId × StrippedNodeAction)) (sn : StrippedNodeAction)
    (h : sn.choices = none) : choiceEdgesOf m sn = [] := by
  unfold choiceEdgesOf
  rw [h]

theorem build_map_get (script : List ActorOrPlayerActionJSON) (itn : List (ActionId × ActionId))
    (hok : build_id_to_next_map script = .ok itn) (hnd : (scriptIds script).Nodup)
    (j : Nat) (a : ActorOrPlayerActionJSON) (ha : script[j]? = some a) :
    alistGet itn a.id =
      match a.next with
      | some n => some n
      | none => (script[j+1]?).map ActorOrPlayerActionJSON.id :=
  (build_map_aux_get script [] itn hok (by simpa using hnd)).2 j a ha

theorem new_ok_outEdges (c : Conversation) (itn : List (ActionId × ActionId))
    (m : List (ActionId × StrippedNodeAction)) (script : List ActorOrPlayerActionJSON)
    (hm : m = strippedList itn 0 script)
    (hedges : c.graph.edges = edgesConcat m m)
    (j : Nat) (a : ActorOrPlayerActionJSON) (ha : script[j]? = some a) :
    c.graph.outEdges j = (edgesOfEntry m (strippedOf itn a j)).reverse := by
  unfold Graph.outEdges
  rw [hedges]
  have h2 := filter_edgesConcat itn m script 0 j a ha
  rw [← hm] at h2
  simp only [Nat.zero_add] at h2
  rw [h2]

/-! ### Claim C1 -/

/-- C1 (amended): a player entry with k choices yields k outgoing edges when
it is the last entry of the script, and k + 1 outgoing edges otherwise (the
extra one being the implicit successor edge to the entry following it in
authoring order); choices with the cursor at that node returns exactly the k
authored choices in order. -/
theorem C1_branch_fanout (raw : RawScript) (c : Conversation) (j : Nat) (pa : PlayerAction)
    (hok : Conversation.new raw = .ok c)
    (hj : raw.script[j]? = some (.player pa)) :
    c.graph.outDeg j = pa.choices.length + (if j + 1 < raw.script.length then 1 else 0)
    ∧ ({ c with current := j } : Conversation).choices
        = ({ c with current := j }, .ok pa.choices) := by
  obtain ⟨itn, m, hitn, hm, hnd, hlen, hnodes, hedges, htab, hclosed, _⟩ := new_ok_spec raw c hok
  constructor
  · unfold Graph.outDeg
    rw [new_ok_outEdges c itn m raw.script hm hedges j _ hj, List.length_reverse]
    unfold edgesOfEntry
    rw [List.length_append]
    have hch : (strippedOf itn (.player pa) j).choices
        = some (pa.choices.map Choice.next) := by
      simp [strippedOf, ActorOrPlayerActionJSON.choices]
    rw [choiceEdgesOf_some m _ (pa.choices.map Choice.next) hch]
    have hnext : (strippedOf itn (.player pa) j).next_action_id
        = (raw.script[j+1]?).map ActorOrPlayerActionJSON.id := by
      have := build_map_get raw.script itn hitn hnd j _ hj
      simpa [strippedOf, ActorOrPlayerActionJSON.next] using this
    cases hnx : raw.script[j+1]? with
    | some b =>
      rw [hnx] at hnext
      rw [nextEdgeOf_some m _ b.id (by simpa using hnext)]
      have hlt : j + 1 < raw.script.length := by
        by_contra hge
        have hnone2 : raw.script[j+1]? = none := List.getElem?_eq_none_iff.mpr (by omega)
        rw [hnone2] at hnx
        exact absurd hnx (by simp)
      rw [if_pos hlt]
      simp [Nat.add_comm]
    | none =>
      rw [hnx] at hnext
      rw [nextEdgeOf_none m _ (by simpa using hnext)]
      have hge : ¬j + 1 < raw.script.length := by
        have := List.getElem?_eq_none_iff.mp hnx
        omega
      rw [if_neg hge]
      simp
  · obtain ⟨n, hn, hnc⟩ := hnodes j _ hj
    simp only [ActorOrPlayerActionJSON.choices] at hnc
    simp [Conversation.choices, hn, hnc]

def cexC1 : RawScript :=
  { actors := [],
    script := [
      .player { id := 0, choices := [{ text := "a", next := 1 }], start := some true },
      .actor { id := 1, text := none, actors := none, next := none, start := none } ] }

def cexC1conv : Conversation :=
  { graph := {
      nodes := [
        { text := none, actors := none, choices := some [{ text := "a", next := 1 }] },
        { text := none, actors := none, choices := none } ],
      edges := [(0, 1), (0, 1)] },
    current := 0,
    id_to_nodeidx := [(0, 0), (1, 1)] }

/-- C1 counterexample: a script whose player entry has one choice builds
successfully, yet the player node has two outgoing edges, not one: the
builder also wires the implicit successor edge to the following entry. -/
theorem C1_counterexample :
    Conversation.new cexC1 = .ok cexC1conv
    ∧ cexC1.script[0]? =
        some (.player { id := 0, choices := [{ text := "a", next := 1 }], start := some true })
    ∧ cexC1conv.graph.outDeg 0 = 2 := by
  refine ⟨?_, rfl, rfl⟩
  rfl

theorem C1_branch_fanout_witness :
    cexC1conv.graph.outDeg 0 =
      [({ text := "a", next := 1 } : Choice)].length
        + (if 0 + 1 < cexC1.script.length then 1 else 0)
    ∧ ({ cexC1conv with current := 0 } : Conversation).choices
        = ({ cexC1conv with current := 0 }, .ok [{ text := "a", next := 1 }]) :=
  C1_branch_fanout cexC1 cexC1conv 0
    { id := 0, choices := [{ text := "a", next := 1 }], start := some true } rfl rfl

/-! ### Claim C3 -/

/-- C3: in every successfully built conversation, an actor entry with no
explicit next that is not last gets exactly one outgoing edge, to the node of
the entry immediately following it in authoring order; and the last entry,
when it has no explicit next and no choices, gets zero outgoing edges. -/
theorem C3_implicit_chaining (raw : RawScript) (c : Conversation)
    (hok : Conversation.new raw = .ok c) :
    (∀ (j : Nat) (aa : ActorAction), raw.script[j]? = some (.actor aa) →
      aa.next = none → j + 1 < raw.script.length →
      c.graph.outEdges j = [(j, j + 1)])
    ∧ (∀ a : ActorOrPlayerActionJSON, raw.script[raw.script.length - 1]? = some a →
        a.next = none → a.choices = none →
        c.graph.outDeg (raw.script.length - 1) = 0) := by
  obtain ⟨itn, m, hitn, hm, hnd, hlen, hnodes, hedges, htab, hclosed, _⟩ := new_ok_spec raw c hok
  constructor
  · intro j aa hj hnone hlt
    rw [new_ok_outEdges c itn m raw.script hm hedges j _ hj]
    obtain ⟨b, hb⟩ : ∃ b, raw.script[j+1]? = some b := by
      cases hx : raw.script[j+1]? with
      | none =>
        rw [List.getElem?_eq_none_iff] at hx
        omega
      | some b => exact ⟨b, rfl⟩
    have hnext : (strippedOf itn (.actor aa) j).next_action_id = some b.id := by
      have := build_map_get raw.script itn hitn hnd j _ hj
      simp only [ActorOrPlayerActionJSON.next, hnone, hb] at this
      simpa [strippedOf] using this
    have hmem : (b.id, strippedOf itn b (j + 1)) ∈ m := by
      have := strippedList_getElem itn 0 raw.script (j+1) b hb
      rw [← hm] at this
      simp only [Nat.zero_add] at this
      exact List.getElem?_mem this
    have hget : alistGet m b.id = some (strippedOf itn b (j + 1)) := by
      apply alistGet_of_nodup_mem m _ _ _ hmem
      rw [hm, strippedList_keys]
      exact hnd
    rw [edgesOfEntry, nextEdgeOf_some m _ _ hnext,
      choiceEdgesOf_none m _ (by simp [strippedOf, ActorOrPlayerActionJSON.choices])]
    simp [hget, strippedOf]
  · intro a hj hnone hnoc
    have hpos : 0 < raw.script.length := by
      by_contra hcon
      have hnil : raw.script = [] := List.length_eq_zero.mp (by omega)
      rw [hnil] at hj
      simp at hj
    unfold Graph.outDeg
    rw [new_ok_outEdges c itn m raw.script hm hedges _ _ hj]
    have hnx : raw.script[raw.script.length - 1 + 1]? = none := by
      rw [List.getElem?_eq_none_iff]
      omega
    have hnext : (strippedOf itn a (raw.script.length - 1)).next_action_id = none := by
      have := build_map_get raw.script itn hitn hnd _ _ hj
      simp only [hnone, hnx] at this
      simpa [strippedOf] using this
    rw [edgesOfEntry, nextEdgeOf_none m _ hnext,
      choiceEdgesOf_none m _ (by simp [strippedOf, hnoc])]
    rfl

def exChain : RawScript :=
  { actors := [],
    script := [
      .actor { id := 5, text := none, actors := none, next := none, start := some true },
      .actor { id := 6, text := none, actors := none, next := none, start := none } ] }

def exChainConv : Conversation :=
  { graph := {
      nodes := [
        { text := none, actors := none, choices := none },
        { text := none, actors := none, choices := none } ],
      edges := [(0, 1)] },
    current := 0,
    id_to_nodeidx := [(5, 0), (6, 1)] }

theorem C3_implicit_chaining_witness :
    exChainConv.graph.outEdges 0 = [(0, 1)]
    ∧ exChainConv.graph.outDeg (exChain.script.length - 1) = 0 :=
  ⟨(C3_implicit_chaining exChain exChainConv rfl).1 0
      { id := 5, text := none, actors := none, next := none, start := some true }
      rfl rfl (by decide),
   (C3_implicit_chaining exChain exChainConv rfl).2
      (.actor { id := 6, text := none, actors := none, next := none, start := none })
      rfl rfl rfl⟩

/-! ### Claim C9 -/

/-- The structural invariant of a conversation: the cursor and every index the
traversal can ever assign to it (table values and edge targets) point inside
the node list. -/
def Conversation.Inv (c : Conversation) : Prop :=
  c.current < c.graph.nodes.length
  ∧ (∀ p ∈ c.id_to_nodeidx, p.2 < c.graph.nodes.length)
  ∧ (∀ e ∈ c.graph.edges, e.2 < c.graph.nodes.length)

/-- C9: construction establishes the cursor invariant, next_line and jump_to
preserve it (also on their error paths), and under it the InvalidDialogue
branches of next_line and choices are unreachable. -/
theorem C9_invalid_dialogue_unreachable (raw : RawScript) (c c2 : Conversation) (id : ActionId)
    (hok : Conversation.new raw = .ok c) :
    Conversation.Inv c
    ∧ (Conversation.Inv c2 →
        Conversation.Inv (c2.next_line).1
        ∧ Conversation.Inv (c2.jump_to id).1
        ∧ (c2.next_line).2 ≠ .error .InvalidDialogue
        ∧ (c2.choices).2 ≠ .error .InvalidDialogue) := by
  constructor
  · obtain ⟨itn, m, hitn, hm, hnd, hlen, hnodes, hedges, htab, hclosed, j, hfs, hcur, _⟩ :=
      new_ok_spec raw c hok
    refine ⟨?_, ?_, ?_⟩
    · rw [hcur, hlen]
      exact firstStartIdx_lt_length raw.script j hfs
    · intro p hp
      rw [htab] at hp
      simp only [List.mem_map] at hp
      obtain ⟨q, hq, hpq⟩ := hp
      rw [hm] at hq
      have := strippedList_node_idx_lt itn raw.script 0 q hq
      rw [hlen, ← hpq]
      simpa using this
    · intro e he
      rw [hedges] at he
      obtain ⟨p, hp, hpe⟩ := edgesConcat_mem m m e he
      obtain ⟨q, hq, he2⟩ := edgesOfEntry_tgt m p.2 (hclosed p hp) e hpe
      rw [he2, hlen]
      rw [hm] at hq
      have := strippedList_node_idx_lt itn raw.script 0 q hq
      simpa using this
  · intro hinv
    obtain ⟨h1, h2, h3⟩ := hinv
    obtain ⟨n, hn⟩ : ∃ n, c2.graph.nodes[c2.current]? = some n := by
      cases hx : c2.graph.nodes[c2.current]? with
      | none =>
        rw [List.getElem?_eq_none_iff] at hx
        omega
      | some n => exact ⟨n, rfl⟩
    refine ⟨?_, ?_, ?_, ?_⟩
    · by_cases hch : n.choices.isSome
      · simp only [Conversation.next_line, hn, hch, if_true]
        exact ⟨h1, h2, h3⟩
      · cases hh : (c2.graph.outEdges c2.current).head? with
        | none =>
          simp only [Conversation.next_line, hn, hch, if_false, hh]
          exact ⟨h1, h2, h3⟩
        | some e =>
          simp only [Conversation.next_line, hn, hch, if_false, hh]
          have hmem : e ∈ c2.graph.edges := by
            have hm1 : e ∈ c2.graph.outEdges c2.current := by
              cases hout : c2.graph.outEdges c2.current with
              | nil => rw [hout] at hh; simp at hh
              | cons x xs =>
                rw [hout] at hh
                simp only [List.head?_cons] at hh
                cases hh
                exact List.mem_cons_self _ _
            unfold Graph.outEdges at hm1
            rw [List.mem_reverse] at hm1
            exact List.mem_of_mem_filter hm1
          exact ⟨h3 e hmem, h2, h3⟩
    · cases hget : alistGet c2.id_to_nodeidx id with
      | none =>
        simp only [Conversation.jump_to, hget]
        exact ⟨h1, h2, h3⟩
      | some idx =>
        simp only [Conversation.jump_to, hget]
        exact ⟨h2 (id, idx) (alistGet_mem _ id idx hget), h2, h3⟩
    · by_cases hch : n.choices.isSome
      · simp [Conversation.next_line, hn, hch]
      · cases hh : (c2.graph.outEdges c2.current).head? with
        | none => simp [Conversation.next_line, hn, hch, hh]
        | some e => simp [Conversation.next_line, hn, hch, hh]
    · cases hch : n.choices with
      | none => simp [Conversation.choices, hn, hch]
      | some cs => simp [Conversation.choices, hn, hch]

theorem C9_witness :
    Conversation.Inv exChainConv
    ∧ Conversation.Inv (exChainConv.next_line).1
    ∧ Conversation.Inv (exChainConv.jump_to 6).1
    ∧ (exChainConv.next_line).2 ≠ .error .InvalidDialogue
    ∧ (exChainConv.choices).2 ≠ .error .InvalidDialogue := by
  have h := C9_invalid_dialogue_unreachable exChain exChainConv exChainConv 6 rfl
  have h2 := h.2 h.1
  exact ⟨h.1, h2.1, h2.2.1, h2.2.2.1, h2.2.2.2⟩

/-! ### Claim C10 -/

theorem map_fst_table (m : List (ActionId × StrippedNodeAction)) :
    (m.map (fun p => (p.1, p.2.node_idx))).map Prod.fst = m.map Prod.fst := by
  induction m with
  | nil => rfl
  | cons p rest ih => simp [ih]

/-- C10: the domain of the id table is exactly the set of authored entry ids;
jump_to succeeds on every authored id, and on the target of every choice of
every list returned by choices, whatever the cursor position. -/
theorem C10_table_domain (raw : RawScript) (c : Conversation)
    (hok : Conversation.new raw = .ok c) :
    c.id_to_nodeidx.map Prod.fst = scriptIds raw.script
    ∧ (∀ id ∈ scriptIds raw.script,
        ∃ idx, c.jump_to id = ({ c with current := idx }, .ok ()))
    ∧ (∀ c2 : Conversation, c2.graph = c.graph → c2.id_to_nodeidx = c.id_to_nodeidx →
        ∀ cs, (c2.choices).2 = .ok cs → ∀ ch ∈ cs,
          ∃ idx, c2.jump_to ch.next = ({ c2 with current := idx }, .ok ())) := by
  obtain ⟨itn, m, hitn, hm, hnd, hlen, hnodes, hedges, htab, hclosed, _⟩ :=
    new_ok_spec raw c hok
  have hkeys : c.id_to_nodeidx.map Prod.fst = scriptIds raw.script := by
    rw [htab, map_fst_table, hm]
    exact strippedList_keys itn 0 raw.script
  refine ⟨hkeys, ?_, ?_⟩
  · intro id hid
    have : (alistGet c.id_to_nodeidx id).isSome = true :=
      (alistGet_isSome_iff _ id).mpr (by rw [hkeys]; exact hid)
    obtain ⟨idx, hidx⟩ := Option.isSome_iff_exists.mp this
    exact ⟨idx, by simp [Conversation.jump_to, hidx]⟩
  · intro c2 hgr htab2 cs hcs ch hch
    cases hg : c2.graph.nodes[c2.current]? with
    | none => simp [Conversation.choices, hg] at hcs
    | some n =>
      cases hnc : n.choices with
      | none => simp [Conversation.choices, hg, hnc] at hcs
      | some cs0 =>
        simp only [Conversation.choices, hg, hnc] at hcs
        have hcs0 : cs0 = cs := by
          cases hcs
          rfl
        subst hcs0
        have hn : c.graph.nodes[c2.current]? = some n := by
          rw [← hgr]
          exact hg
        have hlt : c2.current < raw.script.length := by
          by_contra hge
          have hnone2 : c.graph.nodes[c2.current]? = none :=
            List.getElem?_eq_none_iff.mpr (by rw [hlen]; omega)
          rw [hnone2] at hn
          exact absurd hn (by simp)
        obtain ⟨a0, ha⟩ : ∃ a0, raw.script[c2.current]? = some a0 := by
          cases hx : raw.script[c2.current]? with
          | none =>
            rw [List.getElem?_eq_none_iff] at hx
            omega
          | some a0 => exact ⟨a0, rfl⟩
        obtain ⟨n2, hn2, hn2c⟩ := hnodes c2.current _ ha
        have hnn : n2 = n := by
          rw [hn2] at hn
          cases hn
          rfl
        subst hnn
        have hac : (a0).choices = some cs0 := by
          rw [← hn2c, hnc]
        have hmem : ((a0).id,
            strippedOf itn (a0) c2.current) ∈ m := by
          have := strippedList_getElem itn 0 raw.script c2.current _ ha
          rw [← hm] at this
          simp only [Nat.zero_add] at this
          exact List.getElem?_mem this
        have hclosedEntry := hclosed _ hmem
        have hchk : ch.next ∈ m.map Prod.fst := by
          apply hclosedEntry.2 (cs0.map Choice.next)
          · simp [strippedOf, hac]
          · exact List.mem_map.mpr ⟨ch, hch, rfl⟩
        have : (alistGet c2.id_to_nodeidx ch.next).isSome = true := by
          rw [htab2]
          apply (alistGet_isSome_iff _ ch.next).mpr
          rw [hkeys, ← strippedList_keys itn 0 raw.script, ← hm]
          exact hchk
        obtain ⟨idx, hidx⟩ := Option.isSome_iff_exists.mp this
        exact ⟨idx, by simp [Conversation.jump_to, hidx]⟩

theorem C10_witness :
    cexC1conv.id_to_nodeidx.map Prod.fst = scriptIds cexC1.script
    ∧ (∃ idx, cexC1conv.jump_to 1 = ({ cexC1conv with current := idx }, .ok ()))
    ∧ (∃ idx, cexC1conv.jump_to ({ text := "a", next := 1 } : Choice).next
        = ({ cexC1conv with current := idx }, .ok ())) := by
  have h := C10_table_domain cexC1 cexC1conv rfl
  refine ⟨h.1, h.2.1 1 (by decide), ?_⟩
  exact h.2.2 cexC1conv rfl rfl [{ text := "a", next := 1 }] rfl
    { text := "a", next := 1 } (by simp)

/-! ### Helpers for the construction error claims -/

/-- Some entry of the script carries an explicit next id or a choice target
that no entry of the script carries. -/
def RefDangling (script : List ActorOrPlayerActionJSON) : Prop :=
  ∃ (j : Nat) (a : ActorOrPlayerActionJSON), script[j]? = some a ∧
    ((∃ n, a.next = some n ∧ n ∉ scriptIds script)
     ∨ (∃ cs ch, a.choices = some cs ∧ ch ∈ cs ∧ ch.next ∉ scriptIds script))

/-- Every explicit next id and every choice target of every entry names an id
of the script. -/
def RefsClosed (script : List ActorOrPlayerActionJSON) : Prop :=
  ∀ a ∈ script, (∀ n, a.next = some n → n ∈ scriptIds script)
    ∧ (∀ cs, a.choices = some cs → ∀ ch ∈ cs, ch.next ∈ scriptIds script)

theorem stripped_ref_to_script (itn : List (ActionId × ActionId))
    (script : List ActorOrPlayerActionJSON)
    (hitn : build_id_to_next_map script = .ok itn) (hnd : (scriptIds script).Nodup)
    (id : ActionId) (sn : StrippedNodeAction) (x : ActionId)
    (hmem : (id, sn) ∈ strippedList itn 0 script)
    (hx : x ∉ scriptIds script)
    (hor : sn.next_action_id = some x ∨ ∃ cs2, sn.choices = some cs2 ∧ x ∈ cs2) :
    ∃ (j2 : Nat) (a2 : ActorOrPlayerActionJSON), script[j2]? = some a2 ∧ a2.id = id
      ∧ (a2.next = some x ∨ ∃ cs ch, a2.choices = some cs ∧ ch ∈ cs ∧ ch.next = x) := by
  obtain ⟨j2, a2, hj2, hpa⟩ := mem_strippedList itn 0 script (id, sn) hmem
  have hid : a2.id = id := by
    have := congrArg Prod.fst hpa
    simpa using this.symm
  have hsn : sn = strippedOf itn a2 (0 + j2) := by
    have := congrArg Prod.snd hpa
    simpa using this
  refine ⟨j2, a2, hj2, hid, ?_⟩
  rcases hor with hnx | ⟨cs2, hcs2, hxcs⟩
  · rw [hsn] at hnx
    simp only [strippedOf] at hnx
    have hget := build_map_get script itn hitn hnd j2 a2 hj2
    rw [hget] at hnx
    cases hna : a2.next with
    | some n =>
      simp only [hna] at hnx
      cases hnx
      exact Or.inl rfl
    | none =>
      simp only [hna] at hnx
      cases hb : script[j2+1]? with
      | none => simp [hb] at hnx
      | some b =>
        simp only [hb, Option.map_some] at hnx
        cases hnx
        exact absurd (List.mem_map.mpr ⟨b, List.getElem?_mem hb, rfl⟩) hx
  · rw [hsn] at hcs2
    simp only [strippedOf] at hcs2
    cases hac : a2.choices with
    | none => simp [hac] at hcs2
    | some cs =>
      simp only [hac, Option.map_some] at hcs2
      cases hcs2
      obtain ⟨ch, hch, hchx⟩ := List.mem_map.mp hxcs
      exact Or.inr ⟨cs, ch, rfl, hch, hchx⟩

theorem dangling_not_closed (itn : List (ActionId × ActionId))
    (script : List ActorOrPlayerActionJSON)
    (hitn : build_id_to_next_map script = .ok itn) (hnd : (scriptIds script).Nodup)
    (hd : RefDangling script)
    (hclosed : ∀ p ∈ strippedList itn 0 script,
        EntryClosed (strippedList itn 0 script) p.2) :
    False := by
  obtain ⟨j, a, hj, hcase⟩ := hd
  have hmem : (a.id, strippedOf itn a (0 + j)) ∈ strippedList itn 0 script :=
    List.getElem?_mem (strippedList_getElem itn 0 script j a hj)
  have hcl := hclosed _ hmem
  have hkeys : (strippedList itn 0 script).map Prod.fst = scriptIds script :=
    strippedList_keys itn 0 script
  rcases hcase with ⟨n, hna, hnot⟩ | ⟨cs, ch, hcs, hch, hnot⟩
  · have hnx : (strippedOf itn a (0 + j)).next_action_id = some n := by
      simp only [strippedOf]
      rw [build_map_get script itn hitn hnd j a hj, hna]
    have := hcl.1 n hnx
    rw [hkeys] at this
    exact hnot this
  · have hchs : (strippedOf itn a (0 + j)).choices = some (cs.map Choice.next) := by
      simp only [strippedOf]
      rw [hcs]
      rfl
    have := hcl.2 (cs.map Choice.next) hchs ch.next (List.mem_map.mpr ⟨ch, hch, rfl⟩)
    rw [hkeys] at this
    exact hnot this

theorem stripped_entry_closed (itn : List (ActionId × ActionId))
    (script : List ActorOrPlayerActionJSON)
    (hitn : build_id_to_next_map script = .ok itn) (hnd : (scriptIds script).Nodup)
    (hrc : RefsClosed script)
    (p : ActionId × StrippedNodeAction) (hp : p ∈ strippedList itn 0 script) :
    EntryClosed (strippedList itn 0 script) p.2 := by
  obtain ⟨j, a, hj, hpa⟩ := mem_strippedList itn 0 script p hp
  have hamem : a ∈ script := List.getElem?_mem hj
  have hkeys : (strippedList itn 0 script).map Prod.fst = scriptIds script :=
    strippedList_keys itn 0 script
  have hsn : p.2 = strippedOf itn a (0 + j) := by
    rw [hpa]
  constructor
  · intro n hn
    rw [hsn] at hn
    simp only [strippedOf] at hn
    rw [build_map_get script itn hitn hnd j a hj] at hn
    rw [hkeys]
    cases hna : a.next with
    | some n0 =>
      simp only [hna] at hn
      cases hn
      exact (hrc a hamem).1 _ hna
    | none =>
      simp only [hna] at hn
      cases hb : script[j+1]? with
      | none => simp [hb] at hn
      | some b =>
        simp only [hb, Option.map_some] at hn
        cases hn
        exact List.mem_map.mpr ⟨b, List.getElem?_mem hb, rfl⟩
  · intro cs2 hcs2 x hxc
    rw [hsn] at hcs2
    simp only [strippedOf] at hcs2
    cases hac : a.choices with
    | none => simp [hac] at hcs2
    | some cs =>
      simp only [hac, Option.map_some] at hcs2
      cases hcs2
      obtain ⟨ch, hch, hchx⟩ := List.mem_map.mp hxc
      rw [hkeys, ← hchx]
      exact (hrc a hamem).2 cs hac ch hch

/-! ### Claim C2 -/

/-- C2 (amended): a script containing two entries with the same id never
builds; the error is the duplicate-id error carrying a duplicated id provided
every actor reference of the script resolves and at most one entry carries
the start flag — a missing actor or a second start flag occurring at or
before the second occurrence of the id is reported first. -/
theorem C2_duplicate_ids (raw : RawScript) (d0 : ActionId)
    (hdup : 2 ≤ idCount raw.script d0) :
    (∀ c, Conversation.new raw ≠ .ok c)
    ∧ ((∀ a ∈ raw.script, actorsResolvable raw.actors a) →
        countStartFlags raw.script ≤ 1 →
        ∃ d, Conversation.new raw = .error (.RepeatedId d)
          ∧ 2 ≤ idCount raw.script d) := by
  constructor
  · intro c hok
    obtain ⟨itn, m, hitn, hm, hnd, _⟩ := new_ok_spec raw c hok
    have := idCount_le_one_of_nodup raw.script hnd d0
    omega
  · intro hres hflag
    have hemp : ¬raw.script.isEmpty = true :=
      idCount_pos_nonempty raw.script d0 (by omega)
    cases hitn : build_id_to_next_map raw.script with
    | error e =>
      obtain ⟨d, he, hd⟩ := build_map_aux_err raw.script [] e hitn
      rcases hd with ⟨hk, _⟩ | hc
      · simp at hk
      · refine ⟨d, ?_, hc⟩
        unfold Conversation.new
        rw [if_neg hemp, hitn, he]
    | ok itn =>
      obtain ⟨d, herr, hd⟩ := process_err_repeated raw.actors itn raw.script
        { nodes := [], edges := [] } none [] hres (by simpa using hflag)
        ⟨d0, Or.inr hdup⟩
      rcases hd with ⟨hk, _⟩ | hc
      · simp at hk
      · refine ⟨d, ?_, hc⟩
        unfold Conversation.new
        rw [if_neg hemp, hitn]
        dsimp only
        rw [herr]

def cexC2 : RawScript :=
  { actors := [],
    script := [
      .actor { id := 1, text := none, actors := none, next := none, start := some true },
      .actor { id := 1, text := none, actors := none, next := none, start := some true } ] }

/-- C2 counterexample: two entries share id 1, but both also carry the start
flag, and the construction fails with the multiple-start error, not the
duplicate-id error carrying 1. -/
theorem C2_counterexample :
    2 ≤ idCount cexC2.script 1
    ∧ Conversation.new cexC2 = .error .MultipleStartingAction
    ∧ ScriptParsingError.MultipleStartingAction ≠ .RepeatedId 1 := by
  refine ⟨by decide, ?_, by decide⟩
  rfl

def cexC2b : RawScript :=
  { actors := [],
    script := [
      .actor { id := 1, text := none, actors := none, next := none, start := some true },
      .actor { id := 1, text := none, actors := none, next := none, start := none } ] }

theorem C2_duplicate_ids_witness :
    ∃ d, Conversation.new cexC2b = .error (.RepeatedId d)
      ∧ 2 ≤ idCount cexC2b.script d := by
  refine (C2_duplicate_ids cexC2b 1 (by decide)).2 ?_ (by decide)
  intro a ha
  simp only [cexC2b, List.mem_cons, List.not_mem_nil, or_false] at ha
  rcases ha with ha | ha
  · subst ha
    simp [actorsResolvable]
  · subst ha
    simp [actorsResolvable]

/-! ### Claim C7 -/

/-- C7 (amended): a script with a dangling explicit next or choice target
never builds; provided every actor reference resolves, the ids are unique and
at most one entry carries the start flag, the error is the
next-action-not-found error carrying the id of an entry that references the
missing id together with that missing id — a missing actor, duplicate id or
multiple-start error is otherwise reported first. -/
theorem C7_reference_closure (raw : RawScript) (hd : RefDangling raw.script) :
    (∀ c, Conversation.new raw ≠ .ok c)
    ∧ ((∀ a ∈ raw.script, actorsResolvable raw.actors a) →
        (scriptIds raw.script).Nodup →
        countStartFlags raw.script ≤ 1 →
        ∃ src missing, Conversation.new raw = .error (.NextActionNotFound src missing)
          ∧ missing ∉ scriptIds raw.script
          ∧ ∃ (j2 : Nat) (a2 : ActorOrPlayerActionJSON),
              raw.script[j2]? = some a2 ∧ a2.id = src
              ∧ (a2.next = some missing
                 ∨ ∃ cs ch, a2.choices = some cs ∧ ch ∈ cs ∧ ch.next = missing)) := by
  constructor
  · intro c hok
    obtain ⟨itn, m, hitn, hm, hnd, _, _, _, _, hclosed, _⟩ := new_ok_spec raw c hok
    exact dangling_not_closed itn raw.script hitn hnd hd (hm ▸ hclosed)
  · intro hres hnd hflag
    have hemp : ¬raw.script.isEmpty = true := by
      obtain ⟨j0, a0, hj0, -⟩ := hd
      intro hcon
      have hnil : raw.script = [] := by
        cases hs : raw.script with
        | nil => rfl
        | cons x xs =>
          rw [hs] at hcon
          simp at hcon
      rw [hnil] at hj0
      simp at hj0
    obtain ⟨itn, hitn⟩ := build_map_ok_of_nodup raw.script hnd
    obtain ⟨out, hout⟩ := process_ok_of_valid raw.actors itn raw.script
      { nodes := [], edges := [] } none [] hres (by simpa using hflag) (by simpa using hnd)
    obtain ⟨g0, sa, m0⟩ := out
    obtain ⟨hm0, -, -, -, -⟩ :=
      process_ok_struct raw.actors itn raw.script _ _ _ g0 sa m0 hout
    simp only [List.nil_append, List.length_nil] at hm0
    have hkeys0 : m0.map Prod.fst = scriptIds raw.script := by
      rw [hm0]
      exact strippedList_keys itn 0 raw.script
    cases hval : validate_nexts m0 with
    | error e =>
      obtain ⟨id, sn, x, hmem, he, hx, hor⟩ := validate_nexts_aux_err m0 m0 e hval
      have hx2 : x ∉ scriptIds raw.script := by
        rw [← hkeys0]
        exact hx
      have hor2 : sn.next_action_id = some x ∨ ∃ cs2, sn.choices = some cs2 ∧ x ∈ cs2 := by
        rcases hor with h1 | ⟨_, cs2, hcs2, hxc⟩
        · exact Or.inl h1
        · exact Or.inr ⟨cs2, hcs2, hxc⟩
      obtain ⟨j2, a2, hj2, hid, hcase⟩ := stripped_ref_to_script itn raw.script hitn hnd
        id sn x (hm0 ▸ hmem) hx2 hor2
      refine ⟨id, x, ?_, hx2, j2, a2, hj2, hid, hcase⟩
      unfold Conversation.new
      rw [if_neg hemp, hitn]
      dsimp only
      rw [hout]
      dsimp only
      rw [hval, he]
    | ok u =>
      cases u
      cases hmat : materialize_edges m0 g0 m0 with
      | ok g1 =>
        exfalso
        have hclosed := materialize_edges_ok_closed m0 m0 g0 g1 hmat
        exact dangling_not_closed itn raw.script hitn hnd hd (hm0 ▸ hclosed)
      | error e =>
        obtain ⟨id, sn, x, hmem, he, hx, hor⟩ := materialize_edges_err m0 m0 g0 e hmat
        have hx2 : x ∉ scriptIds raw.script := by
          rw [← hkeys0]
          exact hx
        obtain ⟨j2, a2, hj2, hid, hcase⟩ := stripped_ref_to_script itn raw.script hitn hnd
          id sn x (hm0 ▸ hmem) hx2 hor
        refine ⟨id, x, ?_, hx2, j2, a2, hj2, hid, hcase⟩
        unfold Conversation.new
        rw [if_neg hemp, hitn]
        dsimp only
        rw [hout]
        dsimp only
        rw [hval]
        dsimp only
        rw [hmat, he]

def cexC7 : RawScript :=
  { actors := [],
    script := [
      .actor { id := 0, text := none, actors := none, next := some 5, start := some true },
      .actor { id := 1, text := none, actors := none, next := none, start := some true } ] }

/-- C7 counterexample: entry 0 names the nonexistent id 5 as its next, yet
construction fails with the multiple-start error, because two entries carry
the start flag and that check runs before reference validation. -/
theorem C7_counterexample :
    cexC7.script[0]? = some (.actor
      { id := 0, text := none, actors := none, next := some 5, start := some true })
    ∧ (5 : ActionId) ∉ scriptIds cexC7.script
    ∧ Conversation.new cexC7 = .error .MultipleStartingAction
    ∧ ScriptParsingError.MultipleStartingAction ≠ .NextActionNotFound 0 5 := by
  refine ⟨rfl, by decide, ?_, by decide⟩
  rfl

def cexC7w : RawScript :=
  { actors := [],
    script := [
      .actor { id := 0, text := none, actors := none, next := some 5, start := some true } ] }

theorem C7_reference_closure_witness :
    ∃ src missing, Conversation.new cexC7w = .error (.NextActionNotFound src missing)
      ∧ missing ∉ scriptIds cexC7w.script
      ∧ ∃ (j2 : Nat) (a2 : ActorOrPlayerActionJSON),
          cexC7w.script[j2]? = some a2 ∧ a2.id = src
          ∧ (a2.next = some missing
             ∨ ∃ cs ch, a2.choices = some cs ∧ ch ∈ cs ∧ ch.next = missing) := by
  have hd : RefDangling cexC7w.script :=
    ⟨0, .actor { id := 0, text := none, actors := none, next := some 5, start := some true },
      rfl, Or.inl ⟨5, rfl, by decide⟩⟩
  refine (C7_reference_closure cexC7w hd).2 ?_ (by decide) (by decide)
  intro a ha
  simp only [cexC7w, List.mem_cons, List.not_mem_nil, or_false] at ha
  subst ha
  simp [actorsResolvable]

/-! ### Claim C8 -/

/-- C8 (amended): the empty script always fails with the empty-script error;
a script with two or more start flags never builds, and fails with the
multiple-start error provided actor references resolve and ids are unique
(a duplicate id with explicit nexts, or a missing actor, is reported first);
a nonempty script with no start flag never builds, and fails with the
no-starting-action error provided no other construction error fires first;
and on success the cursor is initialized to the node of the first (and only)
start-flagged entry. -/
theorem C8_start_flags (raw : RawScript) :
    (raw.script = [] → Conversation.new raw = .error .EmptyScript)
    ∧ (2 ≤ countStartFlags raw.script → ∀ c, Conversation.new raw ≠ .ok c)
    ∧ (2 ≤ countStartFlags raw.script →
        (∀ a ∈ raw.script, actorsResolvable raw.actors a) →
        (scriptIds raw.script).Nodup →
        Conversation.new raw = .error .MultipleStartingAction)
    ∧ (countStartFlags raw.script = 0 → raw.script ≠ [] →
        ∀ c, Conversation.new raw ≠ .ok c)
    ∧ (countStartFlags raw.script = 0 → raw.script ≠ [] →
        (∀ a ∈ raw.script, actorsResolvable raw.actors a) →
        (scriptIds raw.script).Nodup → RefsClosed raw.script →
        Conversation.new raw = .error .NoStartingAction)
    ∧ (∀ c, Conversation.new raw = .ok c →
        countStartFlags raw.script = 1
        ∧ ∃ (j : Nat) (a : ActorOrPlayerActionJSON), firstStartIdx raw.script = some j
            ∧ raw.script[j]? = some a ∧ a.start = some true ∧ c.current = j) := by
  refine ⟨?_, ?_, ?_, ?_, ?_, ?_⟩
  · intro hnil
    unfold Conversation.new
    rw [if_pos (by simp [hnil])]
  · intro hcnt c hok
    obtain ⟨itn, m, hitn, hm, hnd, hlen, hnodes, hedges, htab, hclosed, j, hfs, hcur, hone⟩ :=
      new_ok_spec raw c hok
    omega
  · intro hcnt hres hnd
    have hemp : ¬raw.script.isEmpty = true := by
      intro hcon
      have hnil : raw.script = [] := by
        cases hs : raw.script with
        | nil => rfl
        | cons x xs =>
          rw [hs] at hcon
          simp at hcon
      rw [hnil] at hcnt
      simp [countStartFlags] at hcnt
    obtain ⟨itn, hitn⟩ := build_map_ok_of_nodup raw.script hnd
    have hms := process_err_multistart raw.actors itn raw.script
      { nodes := [], edges := [] } none [] hres (by simpa using hnd)
      (by simpa using hcnt)
    unfold Conversation.new
    rw [if_neg hemp, hitn]
    dsimp only
    rw [hms]
  · intro hcnt hne c hok
    obtain ⟨itn, m, hitn, hm, hnd, hlen, hnodes, hedges, htab, hclosed, j, hfs, hcur, hone⟩ :=
      new_ok_spec raw c hok
    omega
  · intro hcnt hne hres hnd hrc
    have hemp : ¬raw.script.isEmpty = true := by
      intro hcon
      apply hne
      cases hs : raw.script with
      | nil => rfl
      | cons x xs =>
        rw [hs] at hcon
        simp at hcon
    · obtain ⟨itn, hitn⟩ := build_map_ok_of_nodup raw.script hnd
      obtain ⟨out, hout⟩ := process_ok_of_valid raw.actors itn raw.script
        { nodes := [], edges := [] } none [] hres (by simp [hcnt]) (by simpa using hnd)
      obtain ⟨g0, sa, m0⟩ := out
      obtain ⟨hm0, -, -, -, -⟩ :=
        process_ok_struct raw.actors itn raw.script _ _ _ g0 sa m0 hout
      simp only [List.nil_append, List.length_nil] at hm0
      have hclosed : ∀ p ∈ m0, EntryClosed m0 p.2 := by
        intro p hp
        rw [hm0]
        rw [hm0] at hp
        exact stripped_entry_closed itn raw.script hitn hnd hrc p hp
      have hvalok : validate_nexts m0 = .ok () := by
        apply validate_nexts_aux_ok
        intro p hp
        have hc := hclosed p hp
        exact ⟨fun n hn => hc.1 n hn, fun _ cs hcs c hcm => hc.2 cs hcs c hcm⟩
      have hsa : sa = none := by
        have hstart := (process_ok_start raw.actors itn raw.script _ _ _
          g0 sa m0 hout).2 rfl
        rw [firstStartIdx_none_of_count_zero raw.script hcnt] at hstart
        simpa using hstart.1
      unfold Conversation.new
      rw [if_neg hemp, hitn]
      dsimp only
      rw [hout]
      dsimp only
      rw [hvalok]
      dsimp only
      rw [materialize_edges_ok m0 m0 g0 hclosed]
      dsimp only
      rw [hsa]
  · intro c hok
    obtain ⟨itn, m, hitn, hm, hnd, hlen, hnodes, hedges, htab, hclosed, j, hfs, hcur, hone⟩ :=
      new_ok_spec raw c hok
    obtain ⟨a, ha, has⟩ := firstStartIdx_flagged raw.script j hfs
    exact ⟨hone, j, a, hfs, ha, has, hcur⟩

def cexC8 : RawScript :=
  { actors := [],
    script := [
      .actor { id := 1, text := none, actors := none, next := some 1, start := some true },
      .actor { id := 1, text := none, actors := none, next := some 1, start := some true } ] }

/-- C8 counterexample: two entries are flagged start = true, but both carry
id 1 with an explicit next, so construction fails with the duplicate-id
error from the id-to-next pass, not the multiple-start error. -/
theorem C8_counterexample :
    2 ≤ countStartFlags cexC8.script
    ∧ Conversation.new cexC8 = .error (.RepeatedId 1)
    ∧ ScriptParsingError.RepeatedId 1 ≠ .MultipleStartingAction := by
  refine ⟨by decide, ?_, by decide⟩
  rfl

def cexMulti : RawScript :=
  { actors := [],
    script := [
      .actor { id := 1, text := none, actors := none, next := none, start := some true },
      .actor { id := 2, text := none, actors := none, next := none, start := some true } ] }

def exNoStart : RawScript :=
  { actors := [],
    script := [
      .actor { id := 1, text := none, actors := none, next := none, start := none } ] }

theorem C8_start_flags_witness :
    Conversation.new { actors := [], script := [] } = .error .EmptyScript
    ∧ Conversation.new cexMulti = .error .MultipleStartingAction
    ∧ Conversation.new exNoStart = .error .NoStartingAction
    ∧ (countStartFlags exChain.script = 1
        ∧ ∃ (j : Nat) (a : ActorOrPlayerActionJSON), firstStartIdx exChain.script = some j
            ∧ exChain.script[j]? = some a ∧ a.start = some true ∧ exChainConv.current = j) := by
  refine ⟨(C8_start_flags { actors := [], script := [] }).1 rfl, ?_, ?_, ?_⟩
  · refine (C8_start_flags cexMulti).2.2.1 (by decide) ?_ (by decide)
    intro a ha
    simp only [cexMulti, List.mem_cons, List.not_mem_nil, or_false] at ha
    rcases ha with ha | ha
    · subst ha
      simp [actorsResolvable]
    · subst ha
      simp [actorsResolvable]
  · refine (C8_start_flags exNoStart).2.2.2.2.1 (by decide) (by decide) ?_ (by decide) ?_
    · intro a ha
      simp only [exNoStart, List.mem_cons, List.not_mem_nil, or_false] at ha
      subst ha
      simp [actorsResolvable]
    · intro a ha
      simp only [exNoStart, List.mem_cons, List.not_mem_nil, or_false] at ha
      subst ha
      constructor
      · intro n hn
        simp [ActorOrPlayerActionJSON.next] at hn
      · intro cs hcs
        simp [ActorOrPlayerActionJSON.choices] at hcs
  · exact (C8_start_flags exChain).2.2.2.2.2 exChainConv rfl
